import Mathlib

/-!
# Nagel-Schreckenberg traffic simulation: a verification development

A shallow embedding of `Code/traffic.cpp` and `Code/npywriter.cpp`.

Modelling conventions.

* `int` is a 32-bit two's complement integer.  A value is an `Int` in
  `[-2^31, 2^31 - 1]`; the operations of `one_time_step`, the subtraction of
  `npy_header` and the loop counter of `main` are reduced by `wrapInt`
  explicitly.  The initial placement and the grids of the writer only see values
  bounded by the ring size and are stated on integers.
* `PRNG::result_type` is `uint_fast32_t`, an unsigned 64-bit word on the target
  platform (the source reads the state back "as unsigned long"); every product of
  such words is reduced modulo `2 ^ 64` explicitly.
* `std::vector<int>` is `List Int`; `for (int i = 0; i < N; i++)` is a left fold
  over `List.range N`.
* The outcomes of the global random engine are supplied by an oracle: the stream
  of values that successive `random_next_float()` / `random_next_int(max)` calls
  return.  Floats are exact rationals.
* A byte is a natural number below 256, a file is a list of bytes.
-/

namespace Traffic

/-! ## Machine integers -/

/-- The value an `int` holds after an operation whose exact result is `a`. -/
def wrapInt (a : Int) : Int := (a + 2147483648) % 4294967296 - 2147483648

/-- The integer `a` is representable as an `int`. -/
def inInt (a : Int) : Prop := -2147483648 ≤ a ∧ a ≤ 2147483647

/-! ## The pseudo random number generator (`class PRNG`) -/

namespace PRNG

/-- The constant `std::minstd_rand::modulus`. -/
def modulus : Nat := 2147483647

/-- The constant `std::minstd_rand::multiplier`. -/
def multiplier : Nat := 48271

/-- Number of values of `result_type` (an unsigned 64-bit word). -/
def wordSize : Nat := 2 ^ 64

/-- Product of two `result_type` values, as the machine computes it. -/
def wmul (a b : Nat) : Nat := (a * b) % wordSize

/-- The `while (z > 0)` loop of `PRNG::discard`; returns the final `az`. -/
def discardLoop (z b az : Nat) : Nat :=
  if _h : z > 0 then
    discardLoop (z / 2) (wmul b b % modulus) (if z % 2 ≠ 0 then wmul az b % modulus else az)
  else az
termination_by z
decreasing_by omega

/-- The library routine `linear_congruential_engine::seed(s)` for increment `0`:
the state becomes `s mod m`, or `1` when that is `0`. -/
def seed (s : Nat) : Nat := if s % modulus = 0 then 1 else s % modulus

/-- One draw of the library engine: the state `x` becomes `(a * x) mod m`. -/
def next (x : Nat) : Nat := (multiplier * x) % modulus

/-- The method `PRNG::discard(z)` on an engine whose state is `x`; returns the new state. -/
def discard (x z : Nat) : Nat :=
  let az := discardLoop z multiplier 1
  seed (wmul x az % modulus)

/-- The values `(z, b, az)` at the start of each iteration of the loop of `PRNG::discard`,
in order. -/
def discardTrace (z b az : Nat) : List (Nat × Nat × Nat) :=
  if _h : z > 0 then
    (z, b, az) ::
      discardTrace (z / 2) (wmul b b % modulus) (if z % 2 ≠ 0 then wmul az b % modulus else az)
  else []
termination_by z
decreasing_by omega

/-- Square-and-multiply with structural fuel; only used to certify that the modulus is prime. -/
def powModAux : Nat → Nat → Nat → Nat → Nat → Nat
  | 0, _, _, _, acc => acc
  | fuel + 1, b, z, m, acc =>
    if z = 0 then acc
    else powModAux fuel (b * b % m) (z / 2) m (if z % 2 = 1 then acc * b % m else acc)

end PRNG

/-! ## Random draws -/

/-- Outcomes of successive `random_next_float()` calls. -/
abbrev FloatDraws := Nat → ℚ

/-- Outcomes of successive `random_next_int(max)` calls. -/
abbrev IntDraws := Nat → Int

/-- The function `random_next_float()`: the next outcome and the remaining stream. -/
def random_next_float (rng : FloatDraws) : ℚ × FloatDraws :=
  (rng 0, fun n => rng (n + 1))

/-- The function `random_next_int(max)`: the distribution is set to the bounds `{0,max}`,
which the library only defines for `0 ≤ max`; then the next outcome is returned. -/
def random_next_int (max : Int) (rng : IntDraws) : Option (Int × IntDraws) :=
  if 0 ≤ max then some (rng 0, fun n => rng (n + 1)) else none

/-- The contract of the integer distribution: each of the first `n` outcomes lies in `[0, max]`. -/
def drawsWithin (max : Int) (n : Nat) (rng : IntDraws) : Prop :=
  ∀ i, i < n → 0 ≤ rng i ∧ rng i ≤ max

/-! ## Parameters -/

/-- The struct `Parameters` of `parameters.h`. -/
structure Parameters where
  L : Int
  T : Int
  N : Int
  p : ℚ
  vmax : Int
  seed : Int
  per : Int
  outputprefix : String

/-- The `double` nearest to the literal `0.2`. -/
def double_0_2 : ℚ := 3602879701896397 / 18014398509481984

/-- The function `default_parameters()` of `parameters.cpp`. -/
def default_parameters : Parameters :=
  ⟨500, 500, 300, double_0_2, 2, 13, 1, "traffic"⟩

/-! ## Initial state -/

/-- Body of the first loop of `random_placement`. -/
def placementIter (N : Nat) (L : Int) (st : List Int × IntDraws) (i : Nat) :
    Option (List Int × IntDraws) :=
  match random_next_int (L - N - 1) st.2 with
  | none => none
  | some (r, rng) => some (st.1.set i r, rng)

/-- Body of the second loop of `random_placement`: `result[i] += i`. -/
def shiftIter (result : List Int) (i : Nat) : List Int :=
  result.set i (result.getD i 0 + i)

/-- The function `random_placement(N, L)`. -/
def random_placement (N : Nat) (L : Int) (rng : IntDraws) : Option (List Int × IntDraws) :=
  match (List.range N).foldlM (placementIter N L) (List.replicate N 0, rng) with
  | none => none
  | some (result, rng1) =>
    let sorted := List.insertionSort (fun a b => a ≤ b) result
    some ((List.range N).foldl shiftIter sorted, rng1)

/-- Body of the loop of `random_velocity`. -/
def velocityDrawIter (N : Nat) (L vmax : Int) (x : List Int) (st : List Int × IntDraws) (i : Nat) :
    Option (List Int × IntDraws) :=
  match random_next_int vmax st.2 with
  | none => none
  | some (r, rng) =>
    let d0 : Int := if (i : Int) < (N : Int) - 1 then x.getD (i + 1) 0 - x.getD i 0
      else x.getD 0 0 - x.getD (N - 1) 0
    let d : Int := if d0 < 0 then d0 + L else d0
    let ri : Int := if r > max 0 (d - 1) then max 0 (d - 1) else r
    some (st.1.set i ri, rng)

/-- The function `random_velocity(N, L, vmax, x)`. -/
def random_velocity (N : Nat) (L vmax : Int) (x : List Int) (rng : IntDraws) :
    Option (List Int × IntDraws) :=
  (List.range N).foldlM (velocityDrawIter N L vmax x) (List.replicate N 0, rng)

/-- The velocity the loop of `random_velocity` stores for car `i` when the draw is `r`, read
off the loop body. -/
def drawnVelocity (N : Nat) (L : Int) (x : List Int) (i : Nat) (r : Int) : Int :=
  let d0 : Int := if (i : Int) < (N : Int) - 1 then x.getD (i + 1) 0 - x.getD i 0
    else x.getD 0 0 - x.getD (N - 1) 0
  let d : Int := if d0 < 0 then d0 + L else d0
  if r > max 0 (d - 1) then max 0 (d - 1) else r

/-! ## One time step -/

/-- Body of the first loop of `one_time_step` (velocity update of car `i`). -/
def velocityIter (x : List Int) (x0 : Int) (N : Nat) (params : Parameters)
    (st : List Int × FloatDraws) (i : Nat) : List Int × FloatDraws :=
  let d : Int := if (i : Int) < (N : Int) - 1 then wrapInt (x.getD (i + 1) 0 - x.getD i 0)
    else wrapInt (wrapInt (x0 - x.getD i 0) + params.L)
  let vi : Int := min (min (wrapInt (st.1.getD i 0 + 1)) params.vmax) (max 0 (wrapInt (d - 1)))
  let draw := random_next_float st.2
  let vi : Int := if draw.1 < params.p then (if vi > 0 then wrapInt (vi - 1) else vi) else vi
  (st.1.set i vi, draw.2)

/-- Body of the second loop of `one_time_step`: `x[i] += v[i]`. -/
def positionIter (v : List Int) (x : List Int) (i : Nat) : List Int :=
  x.set i (wrapInt (x.getD i 0 + v.getD i 0))

/-- The function `one_time_step(x, v, params)`.  The read `x[0]` before the loops is
out of range for an empty `x`; the model then has no result. -/
def one_time_step (x v : List Int) (params : Parameters) (rng : FloatDraws) :
    Option (List Int × List Int × FloatDraws) :=
  let N := min x.length v.length
  match x.head? with
  | none => none
  | some x0 =>
    let st := (List.range N).foldl (velocityIter x x0 N params) (v, rng)
    some ((List.range N).foldl (positionIter st.1) x, st.1, st.2)

/-- The velocity the first loop of `one_time_step` stores for car `i`, read off the loop body
with the old velocity `v[i]` and the `i`-th draw. -/
def stepVelocity (x : List Int) (x0 : Int) (N : Nat) (params : Parameters)
    (v : List Int) (rng : FloatDraws) (i : Nat) : Int :=
  let d : Int := if (i : Int) < (N : Int) - 1 then wrapInt (x.getD (i + 1) 0 - x.getD i 0)
    else wrapInt (wrapInt (x0 - x.getD i 0) + params.L)
  let vi : Int := min (min (wrapInt (v.getD i 0 + 1)) params.vmax) (max 0 (wrapInt (d - 1)))
  if rng i < params.p then (if vi > 0 then wrapInt (vi - 1) else vi) else vi

/-- The forward distance of car `i` in the words of the specification. -/
def specGap (x : List Int) (L : Int) (N i : Nat) : Int :=
  if i + 1 < N then x.getD (i + 1) 0 - x.getD i 0 else x.getD 0 0 + L - x.getD (N - 1) 0

/-- The Nagel-Schreckenberg velocity rule in the words of the specification. -/
def specVelocity (vmax : Int) (p : ℚ) (vi gap : Int) (u : ℚ) : Int :=
  let w := min (vi + 1) (min vmax (max 0 (gap - 1)))
  if u < p ∧ w > 0 then w - 1 else w

/-- The indices at which `one_time_step` accesses `x`, in program order, for `N` cars: the
read `x[0]` before the loops, the reads of the first loop and the updates of the second. -/
def xAccesses (N : Nat) : List Nat :=
  0 :: ((List.range N).flatMap
      (fun i => if (i : Int) < (N : Int) - 1 then [i + 1, i] else [i]) ++ List.range N)

/-- The indices at which `one_time_step` accesses `v`, in program order, for `N` cars: per
iteration of the first loop the read and the write of the velocity update and the test and
decrement of the slowdown (when taken), then the reads of the second loop. -/
def vAccesses (N : Nat) : List Nat :=
  (List.range N).flatMap (fun i => [i, i, i, i]) ++ List.range N

namespace npy

/-- The value of `sizeof(int)` on the target platform. -/
def sizeofInt : Nat := 4

/-- The bytes of an ASCII text. -/
def bytesOf (s : String) : List Nat := s.toList.map Char.toNat

/-- The decimal text `operator<<` prints for an `int`. -/
def decimal (n : Int) : List Nat :=
  match n with
  | Int.ofNat m => (Nat.toDigits 10 m).map Char.toNat
  | Int.negSucc m => '-'.toNat :: (Nat.toDigits 10 (m + 1)).map Char.toNat

/-- The python dictionary streamed into `dict` by the first statement of `npy_header`. -/
def dictText (length maxsequence : Int) : List Nat :=
  bytesOf "\x7b'descr': '<i" ++ decimal sizeofInt ++ bytesOf "', 'fortran_order': False, "
    ++ bytesOf "'shape': (" ++ decimal maxsequence ++ [','.toNat] ++ decimal length
    ++ bytesOf "), \x7d\n"

/-- The function `npy_header(length, maxsequence, fixlen)`; the empty list is the error value.
For `int` arguments the descriptor has fewer than 100 bytes, so the subtraction is the only
operation whose exact result can leave the range of `int`. -/
def npy_header (length maxsequence fixlen : Int) : List Nat :=
  let dict := dictText length maxsequence
  let preheadlen : Int := 10
  let headlen : Int := preheadlen + dict.length + 1
  let add2len : Int :=
    wrapInt ((if fixlen ≠ 0 then fixlen else Int.tdiv (headlen + 15) 16 * 16) - headlen)
  if add2len < 0 then []
  else
    let dict := dict ++ List.replicate add2len.toNat ' '.toNat ++ ['\n'.toNat]
    let dictlen : Nat := dict.length
    let prehead : List Nat :=
      [0x93, 'N'.toNat, 'U'.toNat, 'M'.toNat, 'P'.toNat, 'Y'.toNat, 0x01, 0x00,
        dictlen % 256, dictlen / 256 % 256]
    prehead ++ dict

/-- An output file stream: the bytes of the file and the put position. -/
structure OStream where
  data : List Nat
  pos : Nat

/-- The call `write(src, n)`: `n` bytes of `src` go to the put position. -/
def OStream.write (s : OStream) (src : List Nat) (n : Nat) : OStream :=
  let bytes := src.take n
  ⟨s.data.take s.pos ++ bytes ++ s.data.drop (s.pos + bytes.length), s.pos + bytes.length⟩

/-- The call `seekp(0, std::ios::beg)`. -/
def OStream.seekBeg (s : OStream) : OStream := ⟨s.data, 0⟩

/-- The call `seekp(0, std::ios::end)`. -/
def OStream.seekEnd (s : OStream) : OStream := ⟨s.data, s.data.length⟩

/-- The struct `npy::Writer`. -/
structure Writer where
  npydens : OStream
  npyvelo : OStream
  npytime : OStream
  length : Int
  sequencenumber : Int
  npydensheadersize : Int
  npyveloheadersize : Int
  npytimeheadersize : Int

/-- The four bytes of an `int` in memory (little endian, two's complement). -/
def intBytes (n : Int) : List Nat :=
  let u : Nat := (n % 4294967296).toNat
  [u % 256, u / 256 % 256, u / 65536 % 256, u / 16777216 % 256]

/-- The bytes of the array behind `data()` of a `std::vector<int>`. -/
def rawBytes (xs : List Int) : List Nat := xs.flatMap intBytes

/-- The function `writer_open(filename, length)`; the three files are created empty. -/
def writer_open (_filename : String) (length : Int) : Writer :=
  let npy2dheader := npy_header length 1000000000 0
  let npy1dheader := npy_header 1 1000000000 0
  let size2d : Int := npy2dheader.length
  let size1d : Int := npy1dheader.length
  let fresh : OStream := ⟨[], 0⟩
  ⟨fresh.write npy2dheader size2d.toNat, fresh.write npy2dheader size2d.toNat,
    fresh.write npy1dheader size1d.toNat, length, 0, size2d, size2d, size1d⟩

/-- The mark of a grid point without velocity. -/
def UNSETMARK : Int := -1

/-- Body of the density loop of `writer_add`: `density[y%L]++`. -/
def densityIter (L : Int) (density : List Int) (y : Int) : List Int :=
  let c := (Int.tmod y L).toNat
  density.set c (density.getD c 0 + 1)

/-- The density field `writer_add` builds. -/
def densityGrid (L : Int) (x : List Int) : List Int :=
  x.foldl (densityIter L) (List.replicate L.toNat 0)

/-- Body of the first velocity loop of `writer_add`: `velocity[x[i]%L] = v[i]`. -/
def carIter (L : Int) (x v : List Int) (velocity : List Int) (i : Nat) : List Int :=
  velocity.set (Int.tmod (x.getD i 0) L).toNat (v.getD i 0)

/-- The inner loop `for (int j = 1; j<L; j++)` of `writer_add` with its `break`. -/
def scanAhead (L : Nat) (velocity : List Int) (i : Nat) : List Int :=
  match (List.range' 1 (L - 1)).find? (fun j => velocity.getD ((i + j) % L) 0 != UNSETMARK) with
  | some j => velocity.set i (velocity.getD ((i + j) % L) 0)
  | none => velocity

/-- Body of the second velocity loop of `writer_add`. -/
def fillIter (L : Nat) (velocity : List Int) (i : Nat) : List Int :=
  if velocity.getD i 0 = UNSETMARK then scanAhead L velocity i else velocity

/-- The velocity field `writer_add` builds. -/
def velocityGrid (L : Int) (x v : List Int) : List Int :=
  let N := x.length
  let velocity := (List.range N).foldl (carIter L x v) (List.replicate L.toNat UNSETMARK)
  (List.range L.toNat).foldl (fillIter L.toNat) velocity

/-- The function `writer_add(wrtr, t, x, v)`. -/
def writer_add (wrtr : Writer) (t : Int) (x v : List Int) : Writer :=
  let L := wrtr.length
  let density := densityGrid L x
  let velocity := velocityGrid L x v
  ⟨wrtr.npydens.write (rawBytes density) (L.toNat * sizeofInt),
    wrtr.npyvelo.write (rawBytes velocity) (L.toNat * sizeofInt),
    wrtr.npytime.write (intBytes t) sizeofInt,
    wrtr.length, wrtr.sequencenumber + 1,
    wrtr.npydensheadersize, wrtr.npyveloheadersize, wrtr.npytimeheadersize⟩

/-- The function `writer_close(wrtr)`; the streams of the result are the closed files. -/
def writer_close (wrtr : Writer) : Writer :=
  let npy2dheader := npy_header wrtr.length wrtr.sequencenumber wrtr.npydensheadersize
  let npy1dheader := npy_header 1 wrtr.sequencenumber wrtr.npytimeheadersize
  ⟨((wrtr.npydens.seekBeg).write npy2dheader wrtr.npydensheadersize.toNat).seekEnd,
    ((wrtr.npyvelo.seekBeg).write npy2dheader wrtr.npyveloheadersize.toNat).seekEnd,
    ((wrtr.npytime.seekBeg).write npy1dheader wrtr.npytimeheadersize.toNat).seekEnd,
    wrtr.length, wrtr.sequencenumber,
    wrtr.npydensheadersize, wrtr.npyveloheadersize, wrtr.npytimeheadersize⟩

/-- The writer whose three files hold the headers `hdr2`, `hdr2`, `hdr1` followed by the
record bytes `D`, `V`, `T`, with the put positions at the end. -/
def writerWith (hdr2 hdr1 D V T : List Nat) (L n : Int) : Writer :=
  ⟨⟨hdr2 ++ D, (hdr2 ++ D).length⟩, ⟨hdr2 ++ V, (hdr2 ++ V).length⟩,
    ⟨hdr1 ++ T, (hdr1 ++ T).length⟩, L, n, hdr2.length, hdr2.length, hdr1.length⟩

/-- The writer after `writer_open` and one `writer_add` per entry of `adds`. -/
def addAll (filename : String) (L : Int) (adds : List (Int × List Int × List Int)) : Writer :=
  adds.foldl (fun w a => writer_add w a.1 a.2.1 a.2.2) (writer_open filename L)

/-- The writer protocol as `main` drives it: `writer_open`, one `writer_add` per entry of
`adds` (time index, positions, velocities), then `writer_close`. -/
def writeAll (filename : String) (L : Int) (adds : List (Int × List Int × List Int)) : Writer :=
  writer_close (addAll filename L adds)

/-- Offset `j` is the least one at which the grid `V` is set, looking ahead of cell `c`. -/
def NearestSet (V : List Int) (L c j : Nat) : Prop :=
  j < L ∧ V.getD ((c + j) % L) 0 ≠ UNSETMARK ∧ ∀ j1, j1 < j → V.getD ((c + j1) % L) 0 = UNSETMARK

/-- State of the fill loop of `writer_add` before iteration `k`: cells from `k` on still hold
the values `V` written by the cars, earlier cells hold the nearest set value ahead. -/
def FillInv (V : List Int) (L k : Nat) (W : List Int) : Prop :=
  W.length = L ∧ (∀ c, k ≤ c → W.getD c 0 = V.getD c 0) ∧
    ∀ c, c < k → ∃ j, NearestSet V L c j ∧ W.getD c 0 = V.getD ((c + j) % L) 0

/-- The grid cell `x[i] % L` that the loops of `writer_add` index. -/
def cellOf (L : Int) (x : List Int) (i : Nat) : Nat := (Int.tmod (x.getD i 0) L).toNat

end npy

/-! ## The driver loop of `main` -/

/-- Body of the loop `for (int t = 0; t <= params.T; t++)` of `main` at tick `t`; a writer that
was never opened is `none`, and the result is `none` when `one_time_step` has none. -/
def driverIter (params : Parameters)
    (st : List Int × List Int × FloatDraws × Option npy.Writer) (t : Int) :
    Option (List Int × List Int × FloatDraws × Option npy.Writer) :=
  let wrtr1 : Option npy.Writer :=
    if params.per > 0 ∧ Int.tmod t params.per = 0 then
      st.2.2.2.map (fun w => npy.writer_add w t st.1 st.2.1)
    else st.2.2.2
  match one_time_step st.1 st.2.1 params st.2.2.1 with
  | none => none
  | some (x1, v1, rng1) => some (x1, v1, rng1, wrtr1)

/-- The loop `for (int t = 0; t <= params.T; t++)` of `main`, entered with the counter `t`:
at most `fuel` evaluations of the loop condition, `none` when they do not suffice or the body
has no result.  The increment of the `int` counter wraps. -/
def driverLoop (params : Parameters) :
    Nat → Int → List Int × List Int × FloatDraws × Option npy.Writer →
      Option (List Int × List Int × FloatDraws × Option npy.Writer)
  | 0, _, _ => none
  | fuel + 1, t, st =>
    if t ≤ params.T then
      match driverIter params st t with
      | none => none
      | some st1 => driverLoop params fuel (wrapInt (t + 1)) st1
    else some st

/-- The part of `main` after the initial state is drawn: open the files when `per > 0`, run
the loop from `t = 0`, close the files when `per > 0`. -/
def driver (fuel : Nat) (params : Parameters) (x v : List Int) (rng : FloatDraws) :
    Option (List Int × List Int × FloatDraws × Option npy.Writer) :=
  let wrtr0 : Option npy.Writer :=
    if params.per > 0 then some (npy.writer_open ( Parameters.outputprefix params) params.L)
    else none
  match driverLoop params fuel 0 (x, v, rng, wrtr0) with
  | none => none
  | some (x1, v1, rng1, wrtr1) =>
    some (x1, v1, rng1, if params.per > 0 then wrtr1.map npy.writer_close else wrtr1)

theorem getD_set_int (l : List Int) (i j : Nat) (a : Int) :
    (l.set i a).getD j 0 = if i = j ∧ i < l.length then a else l.getD j 0 := by
  simp only [List.getD_eq_getElem?_getD, List.getElem?_set]
  by_cases h : i = j
  · subst h
    by_cases h2 : i < l.length
    · simp [h2]
    · simp [h2]
      rw [List.getElem?_eq_none (by omega)]
      rfl
  · simp [h]

theorem velocity_loop (x : List Int) (x0 : Int) (N : Nat) (params : Parameters)
    (v : List Int) (rng : FloatDraws) (k : Nat) :
    ∃ vk : List Int,
      (List.range k).foldl (velocityIter x x0 N params) (v, rng) = (vk, fun n => rng (n + k)) ∧
      vk.length = v.length ∧
      ∀ j, vk.getD j 0 =
        if j < k ∧ j < v.length then stepVelocity x x0 N params v rng j else v.getD j 0 := by
  induction k with
  | zero => exact ⟨v, by simp, rfl, by simp⟩
  | succ k ih =>
    obtain ⟨vk, hfold, hlen, hget⟩ := ih
    refine ⟨vk.set k (stepVelocity x x0 N params v rng k), ?_, by simp [hlen], ?_⟩
    · rw [List.range_succ, List.foldl_append, hfold]
      simp only [List.foldl_cons, List.foldl_nil, velocityIter, random_next_float, stepVelocity]
      have hk : vk.getD k 0 = v.getD k 0 := by rw [hget k]; simp
      rw [hk]
      simp only [Nat.zero_add, Prod.mk.injEq]
      refine ⟨trivial, ?_⟩
      funext n
      congr 1
      omega
    · intro j
      rw [getD_set_int, hget j, hlen]
      by_cases hjk : k = j
      · subst hjk
        by_cases hl : k < v.length
        · simp [hl]
        · simp [hl]
      · by_cases hlt : j < k
        · have : j < k + 1 := by omega
          simp [hjk, hlt, this]
        · have : ¬ j < k + 1 := by omega
          simp [hjk, hlt, this]

theorem position_loop (v x : List Int) (k : Nat) :
    ((List.range k).foldl (positionIter v) x).length = x.length ∧
    ∀ j, ((List.range k).foldl (positionIter v) x).getD j 0 =
      if j < k ∧ j < x.length then wrapInt (x.getD j 0 + v.getD j 0) else x.getD j 0 := by
  induction k with
  | zero => simp
  | succ k ih =>
    obtain ⟨hlen, hget⟩ := ih
    rw [List.range_succ, List.foldl_append]
    simp only [List.foldl_cons, List.foldl_nil, positionIter]
    refine ⟨by simp [hlen], ?_⟩
    intro j
    rw [getD_set_int, hget j, hget k, hlen]
    by_cases hjk : k = j
    · subst hjk
      by_cases hl : k < x.length
      · simp [hl]
      · simp [hl]
    · by_cases hlt : j < k
      · have : j < k + 1 := by omega
        simp [hjk, hlt, this]
      · have : ¬ j < k + 1 := by omega
        simp [hjk, hlt, this]

theorem one_time_step_eq (x v : List Int) (params : Parameters) (rng : FloatDraws) (N : Nat)
    (hN : 1 ≤ N) (hx : x.length = N) (hv : v.length = N) :
    ∃ x1 v1 : List Int,
      one_time_step x v params rng = some (x1, v1, fun n => rng (n + N)) ∧
      x1.length = N ∧ v1.length = N ∧
      (∀ j, j < N → v1.getD j 0 = stepVelocity x (x.getD 0 0) N params v rng j) ∧
      (∀ j, j < N → x1.getD j 0 = wrapInt (x.getD j 0 + v1.getD j 0)) := by
  obtain ⟨vk, hfold, hlen, hget⟩ := velocity_loop x (x.getD 0 0) N params v rng N
  obtain ⟨plen, pget⟩ := position_loop vk x N
  cases x with
  | nil => simp at hx; omega
  | cons a t =>
    refine ⟨(List.range N).foldl (positionIter vk) (a :: t), vk, ?_, ?_, ?_, ?_, ?_⟩
    · simp only [one_time_step, List.head?_cons]
      have hmin : min (a :: t).length v.length = N := by rw [hx, hv]; simp
      rw [hmin]
      have ha : (a :: t).getD 0 0 = a := rfl
      rw [ha] at hfold
      rw [hfold]
    · rw [plen, hx]
    · rw [hlen, hv]
    · intro j hj
      rw [hget j, if_pos ⟨hj, by omega⟩]
    · intro j hj
      rw [pget j, if_pos ⟨hj, by omega⟩]

theorem ite_ite_eq_ite_and (c1 c2 : Prop) [Decidable c1] [Decidable c2] (a b : Int) :
    (if c1 then (if c2 then a else b) else b) = if c1 ∧ c2 then a else b := by
  by_cases h1 : c1 <;> by_cases h2 : c2 <;> simp [h1, h2]

theorem wrapInt_of_inInt (a : Int) (h : inInt a) : wrapInt a = a := by
  unfold inInt at h
  unfold wrapInt
  omega

theorem stepVelocity_eq_spec (x : List Int) (N : Nat) (params : Parameters)
    (v : List Int) (rng : FloatDraws) (i : Nat) (hi : i < N)
    (hv : inInt (v.getD i 0 + 1))
    (hgap : inInt (specGap x params.L N i) ∧ inInt (specGap x params.L N i - 1))
    (hlast : i + 1 = N → inInt (x.getD 0 0 - x.getD i 0)) :
    stepVelocity x (x.getD 0 0) N params v rng i =
      specVelocity params.vmax params.p (v.getD i 0) (specGap x params.L N i) (rng i) := by
  have hd : (if (i : Int) < (N : Int) - 1 then wrapInt (x.getD (i + 1) 0 - x.getD i 0)
      else wrapInt (wrapInt (x.getD 0 0 - x.getD i 0) + params.L)) = specGap x params.L N i := by
    have hg := hgap.1
    unfold specGap at hg ⊢
    by_cases h : i + 1 < N
    · rw [if_pos (by omega), if_pos h]
      rw [if_pos h] at hg
      exact wrapInt_of_inInt _ hg
    · rw [if_neg (by omega), if_neg h]
      rw [if_neg h] at hg
      have hiN : N - 1 = i := by omega
      rw [hiN] at hg ⊢
      rw [wrapInt_of_inInt _ (hlast (by omega))]
      have he : x.getD 0 0 - x.getD i 0 + params.L = x.getD 0 0 + params.L - x.getD i 0 := by
        ring
      rw [he]
      exact wrapInt_of_inInt _ hg
  unfold stepVelocity specVelocity
  simp only
  rw [hd, wrapInt_of_inInt _ hv, wrapInt_of_inInt _ hgap.2, min_assoc]
  have hw : ∀ w : Int, w ≤ v.getD i 0 + 1 → w > 0 → wrapInt (w - 1) = w - 1 := by
    intro w h1 h2
    apply wrapInt_of_inInt
    unfold inInt at hv ⊢
    omega
  by_cases hpos : min (v.getD i 0 + 1)
      (min params.vmax (max 0 (specGap x params.L N i - 1))) > 0
  · rw [if_pos hpos, hw _ (min_le_left _ _) hpos]
    by_cases hu : rng i < params.p
    · rw [if_pos hu, if_pos ⟨hu, hpos⟩]
    · rw [if_neg hu, if_neg (fun h => hu h.1)]
  · rw [if_neg hpos]
    by_cases hu : rng i < params.p
    · rw [if_pos hu, if_neg (fun h => hpos h.2)]
    · rw [if_neg hu, if_neg (fun h => hu h.1)]

theorem stepVelocity_bounds (x : List Int) (x0 : Int) (N : Nat) (params : Parameters)
    (v : List Int) (rng : FloatDraws) (i : Nat)
    (hvmax : 0 ≤ params.vmax) (hv : 0 ≤ v.getD i 0) (hv1 : v.getD i 0 < 2147483647) :
    0 ≤ stepVelocity x x0 N params v rng i ∧ stepVelocity x x0 N params v rng i ≤ params.vmax := by
  unfold stepVelocity
  simp only
  generalize (if (i : Int) < (N : Int) - 1 then wrapInt (x.getD (i + 1) 0 - x.getD i 0)
    else wrapInt (wrapInt (x0 - x.getD i 0) + params.L)) = d
  rw [wrapInt_of_inInt (v.getD i 0 + 1) (by unfold inInt; omega)]
  have h1 : 0 ≤ min (min (v.getD i 0 + 1) params.vmax) (max 0 (wrapInt (d - 1))) :=
    le_min (le_min (by omega) hvmax) (le_max_left _ _)
  have h2 : min (min (v.getD i 0 + 1) params.vmax) (max 0 (wrapInt (d - 1))) ≤ params.vmax :=
    le_trans (min_le_left _ _) (min_le_right _ _)
  have h3 : min (min (v.getD i 0 + 1) params.vmax) (max 0 (wrapInt (d - 1)))
      ≤ v.getD i 0 + 1 := le_trans (min_le_left _ _) (min_le_left _ _)
  generalize min (min (v.getD i 0 + 1) params.vmax) (max 0 (wrapInt (d - 1))) = w at h1 h2 h3 ⊢
  have hw : w > 0 → wrapInt (w - 1) = w - 1 := by
    intro hpos
    apply wrapInt_of_inInt
    unfold inInt
    omega
  split_ifs with hu hpos
  · rw [hw hpos]; omega
  · omega
  · omega

theorem stepVelocity_le_gap (x : List Int) (x0 : Int) (N : Nat) (params : Parameters)
    (v : List Int) (rng : FloatDraws) (i : Nat) (d : Int)
    (hd : d = (if (i : Int) < (N : Int) - 1 then wrapInt (x.getD (i + 1) 0 - x.getD i 0)
      else wrapInt (wrapInt (x0 - x.getD i 0) + params.L)))
    (hpos : 1 ≤ d) (hdmax : d ≤ 2147483647)
    (hv : 0 ≤ v.getD i 0) (hv1 : v.getD i 0 < 2147483647) :
    stepVelocity x x0 N params v rng i ≤ d - 1 := by
  unfold stepVelocity
  simp only
  rw [← hd, wrapInt_of_inInt (d - 1) (by unfold inInt; omega),
    wrapInt_of_inInt (v.getD i 0 + 1) (by unfold inInt; omega)]
  have h2 : min (min (v.getD i 0 + 1) params.vmax) (max 0 (d - 1)) ≤ d - 1 :=
    le_trans (min_le_right _ _) (max_le (by omega) le_rfl)
  have h3 : min (min (v.getD i 0 + 1) params.vmax) (max 0 (d - 1)) ≤ v.getD i 0 + 1 :=
    le_trans (min_le_left _ _) (min_le_left _ _)
  generalize min (min (v.getD i 0 + 1) params.vmax) (max 0 (d - 1)) = w at h2 h3 ⊢
  have hw : w > 0 → wrapInt (w - 1) = w - 1 := by
    intro hp
    apply wrapInt_of_inInt
    unfold inInt
    omega
  split_ifs with hu hp
  · rw [hw hp]; omega
  · omega
  · omega

/-! ## Claims about `one_time_step` -/

theorem getD_le_of_increasing (x : List Int) (N : Nat)
    (hord : ∀ i, i + 1 < N → x.getD i 0 < x.getD (i + 1) 0) :
    ∀ d i, i + d < N → x.getD i 0 ≤ x.getD (i + d) 0 := by
  intro d
  induction d with
  | zero => intro i _; exact le_rfl
  | succ d ih =>
    intro i hi
    have h1 := ih i (by omega)
    have h2 := hord (i + d) (by omega)
    have h3 : i + d + 1 = i + (d + 1) := by omega
    rw [h3] at h2
    omega

/-- Under the ordering invariant and without overflow, every car moves by a velocity in
`[0, vmax]` that keeps it behind its leader, and the new position is the exact sum. -/
theorem one_time_step_in_range (x v : List Int) (params : Parameters) (rng : FloatDraws)
    (N : Nat) (hN : 1 ≤ N) (hx : x.length = N) (hv : v.length = N)
    (hvmax : 0 ≤ params.vmax)
    (hord : ∀ i, i + 1 < N → x.getD i 0 < x.getD (i + 1) 0)
    (hspan : x.getD (N - 1) 0 < x.getD 0 0 + params.L)
    (hvel : ∀ i, i < N → 0 ≤ v.getD i 0 ∧ v.getD i 0 < 2147483647)
    (hL : params.L ≤ 2147483647) (hxr : ∀ i, i < N → inInt (x.getD i 0))
    (hlast : x.getD 0 0 + params.L ≤ 2147483648 ∨ x.getD (N - 1) 0 + params.vmax ≤ 2147483647) :
    ∃ (x1 v1 : List Int),
      one_time_step x v params rng = some (x1, v1, fun n => rng (n + N)) ∧
      x1.length = N ∧ v1.length = N ∧
      ∀ i, i < N → 0 ≤ v1.getD i 0 ∧ v1.getD i 0 ≤ params.vmax ∧
        x1.getD i 0 = x.getD i 0 + v1.getD i 0 ∧
        (i + 1 < N → x.getD i 0 + v1.getD i 0 < x.getD (i + 1) 0) ∧
        (i + 1 = N → x.getD i 0 + v1.getD i 0 < x.getD 0 0 + params.L) := by
  obtain ⟨x1, v1, hstep, hx1, hv1, hvget, hxget⟩ := one_time_step_eq x v params rng N hN hx hv
  refine ⟨x1, v1, hstep, hx1, hv1, ?_⟩
  intro i hi
  have hmono := getD_le_of_increasing x N hord
  have hb := stepVelocity_bounds x (x.getD 0 0) N params v rng i hvmax (hvel i hi).1 (hvel i hi).2
  have hxi := hxr i hi
  have hx0 := hxr 0 (by omega)
  have hxl := hxr (N - 1) (by omega)
  have h0i := hmono i 0 (by omega)
  rw [Nat.zero_add] at h0i
  have hil := hmono (N - 1 - i) i (by omega)
  have e1 : i + (N - 1 - i) = N - 1 := by omega
  rw [e1] at hil
  unfold inInt at hxi hx0 hxl
  rw [hxget i hi, hvget i hi]
  by_cases hlt : i + 1 < N
  · have hnext := hord i hlt
    have hxn := hxr (i + 1) hlt
    have hnl := hmono (N - 1 - (i + 1)) (i + 1) (by omega)
    have e2 : i + 1 + (N - 1 - (i + 1)) = N - 1 := by omega
    rw [e2] at hnl
    unfold inInt at hxn
    have hd : wrapInt (x.getD (i + 1) 0 - x.getD i 0) = x.getD (i + 1) 0 - x.getD i 0 :=
      wrapInt_of_inInt _ (by unfold inInt; omega)
    have hle := stepVelocity_le_gap x (x.getD 0 0) N params v rng i
      (x.getD (i + 1) 0 - x.getD i 0) (by rw [if_pos (by omega), hd]) (by omega) (by omega)
      (hvel i hi).1 (hvel i hi).2
    have hsum : wrapInt (x.getD i 0 + stepVelocity x (x.getD 0 0) N params v rng i)
        = x.getD i 0 + stepVelocity x (x.getD 0 0) N params v rng i :=
      wrapInt_of_inInt _ (by unfold inInt; omega)
    exact ⟨hb.1, hb.2, hsum, fun _ => by omega, fun h => by omega⟩
  · have hiN : i = N - 1 := by omega
    have hd1 : wrapInt (x.getD 0 0 - x.getD i 0) = x.getD 0 0 - x.getD i 0 :=
      wrapInt_of_inInt _ (by unfold inInt; omega)
    have hd2 : wrapInt (x.getD 0 0 - x.getD i 0 + params.L)
        = x.getD 0 0 - x.getD i 0 + params.L :=
      wrapInt_of_inInt _ (by unfold inInt; omega)
    have hle := stepVelocity_le_gap x (x.getD 0 0) N params v rng i
      (x.getD 0 0 - x.getD i 0 + params.L) (by rw [if_neg (by omega), hd1, hd2]) (by omega)
      (by omega) (hvel i hi).1 (hvel i hi).2
    have hsum : wrapInt (x.getD i 0 + stepVelocity x (x.getD 0 0) N params v rng i)
        = x.getD i 0 + stepVelocity x (x.getD 0 0) N params v rng i := by
      apply wrapInt_of_inInt
      unfold inInt
      rcases hlast with h | h
      · omega
      · omega
    exact ⟨hb.1, hb.2, hsum, fun h => by omega, fun _ => by omega⟩

/-- C1 (counterexample): three cars at `[2147483640, 2147483643, 2147483646]` with velocities
`[0, 1, 2]` on a ring of `L = 10` cells, `vmax = 2`, `p = 0`, are strictly increasing, span less
than a lap and have non-negative velocities; after `one_time_step` the last position
`2147483646 + 2` has wrapped to `-2147483648`, below its follower at `2147483645`. -/
theorem one_time_step_order_overflow :
    (∀ i, i + 1 < 3 → ([2147483640, 2147483643, 2147483646] : List Int).getD i 0
        < ([2147483640, 2147483643, 2147483646] : List Int).getD (i + 1) 0) ∧
      ([2147483640, 2147483643, 2147483646] : List Int).getD (3 - 1) 0
        < ([2147483640, 2147483643, 2147483646] : List Int).getD 0 0 + 10 ∧
      (∀ i, i < 3 → 0 ≤ ([0, 1, 2] : List Int).getD i 0) ∧
      ∃ (x1 v1 : List Int) (rng1 : FloatDraws),
        one_time_step [2147483640, 2147483643, 2147483646] [0, 1, 2]
          ⟨10, 5, 3, 0, 2, 42, 1, "traffic"⟩ (fun _ => 0) = some (x1, v1, rng1) ∧
        x1 = [2147483641, 2147483645, -2147483648] ∧
        ¬ (x1.getD 1 0 < x1.getD (1 + 1) 0) := by
  refine ⟨?_, by decide, ?_, _, _, _, rfl, ?_, ?_⟩
  · intro i hi
    have hi2 : i < 2 := by omega
    interval_cases i <;> decide
  · intro i hi
    interval_cases i <;> decide
  · simp [velocityIter, positionIter, random_next_float, wrapInt, List.range_succ]
  · simp [velocityIter, positionIter, random_next_float, wrapInt, List.range_succ]

/-- C1 (amended): `one_time_step` preserves the ring ordering when no `int` overflows.  For
`N ≥ 1` cars, `vmax ≥ 0`, any `p` and any draws, if the positions are `int` values, strictly
increasing and span less than one lap, every velocity is in `[0, 2147483646]`, `L` is an `int`
and the move of the last car cannot overflow (`x[0] + L ≤ 2147483648` or
`x[N-1] + vmax ≤ 2147483647`), then the call returns and the new positions are again strictly
increasing with `x[N-1] < x[0] + L`. -/
theorem one_time_step_preserves_order (x v : List Int) (params : Parameters) (rng : FloatDraws)
    (N : Nat) (hN : 1 ≤ N) (hx : x.length = N) (hv : v.length = N)
    (hvmax : 0 ≤ params.vmax)
    (hord : ∀ i, i + 1 < N → x.getD i 0 < x.getD (i + 1) 0)
    (hspan : x.getD (N - 1) 0 < x.getD 0 0 + params.L)
    (hvel : ∀ i, i < N → 0 ≤ v.getD i 0 ∧ v.getD i 0 < 2147483647)
    (hL : params.L ≤ 2147483647) (hxr : ∀ i, i < N → inInt (x.getD i 0))
    (hlast : x.getD 0 0 + params.L ≤ 2147483648 ∨ x.getD (N - 1) 0 + params.vmax ≤ 2147483647) :
    ∃ (x1 v1 : List Int) (rng1 : FloatDraws),
      one_time_step x v params rng = some (x1, v1, rng1) ∧ x1.length = N ∧
      (∀ i, i + 1 < N → x1.getD i 0 < x1.getD (i + 1) 0) ∧
      x1.getD (N - 1) 0 < x1.getD 0 0 + params.L := by
  obtain ⟨x1, v1, hstep, hx1, _, hall⟩ := one_time_step_in_range x v params rng N hN hx hv
    hvmax hord hspan hvel hL hxr hlast
  refine ⟨x1, v1, _, hstep, hx1, ?_, ?_⟩
  · intro i hi
    obtain ⟨_, _, h3, h4, _⟩ := hall i (by omega)
    obtain ⟨k1, _, k3, _, _⟩ := hall (i + 1) hi
    have := h4 hi
    omega
  · obtain ⟨_, _, h3, _, h5⟩ := hall (N - 1) (by omega)
    obtain ⟨k1, _, k3, _, _⟩ := hall 0 (by omega)
    have := h5 (by omega)
    omega

/-- A concrete instance: three cars on a ring of ten cells. -/
theorem one_time_step_preserves_order_witness :
    ∃ (x1 v1 : List Int) (rng1 : FloatDraws),
      one_time_step [0, 3, 7] [0, 1, 2] ⟨10, 5, 3, 0, 2, 42, 1, "traffic"⟩ (fun _ => 0)
        = some (x1, v1, rng1) ∧ x1.length = 3 ∧
      (∀ i, i + 1 < 3 → x1.getD i 0 < x1.getD (i + 1) 0) ∧
      x1.getD (3 - 1) 0 < x1.getD 0 0 + 10 :=
  one_time_step_preserves_order [0, 3, 7] [0, 1, 2] ⟨10, 5, 3, 0, 2, 42, 1, "traffic"⟩
    (fun _ => 0) 3 (by decide) rfl rfl (by decide)
    (by intro i hi; have hi2 : i < 2 := by omega
        interval_cases i <;> decide)
    (by decide)
    (by intro i hi; interval_cases i <;> decide)
    (by decide)
    (by intro i hi; interval_cases i <;> (unfold inInt; decide))
    (Or.inl (by decide))

/-- C4 (counterexample): for cars at `[0, 3, 7]` with velocities `[2147483647, 1, 2]`, `L = 10`,
`vmax = 2`, `p = 0`, the sum `v[0] + 1` wraps to `-2147483648`, which `one_time_step` stores as
the new velocity of car 0, while `min(v[0] + 1, vmax, max(0, gap_0 - 1))` is `2`. -/
theorem one_time_step_velocity_rule_overflow :
    ∃ (x1 v1 : List Int) (rng1 : FloatDraws),
      one_time_step [0, 3, 7] [2147483647, 1, 2] ⟨10, 5, 3, 0, 2, 42, 1, "traffic"⟩
        (fun _ => 0) = some (x1, v1, rng1) ∧
      v1.getD 0 0 = -2147483648 ∧
      specVelocity 2 0 (([2147483647, 1, 2] : List Int).getD 0 0) (specGap [0, 3, 7] 10 3 0) 0
        = 2 := by
  refine ⟨_, _, _, rfl, ?_, ?_⟩
  · simp [velocityIter, random_next_float, wrapInt, List.range_succ]
  · simp [specVelocity, specGap]

/-- C4 (amended): `one_time_step` computes the Nagel-Schreckenberg update from the positions as
they were before the call, when no `int` overflows.  For `N ≥ 1` cars, if for every car `i` the
values `v[i] + 1`, `gap_i`, `gap_i - 1` (and `x[0] - x[N-1]` for the last car) and `x[i]` plus
the new velocity are within `[-2147483648, 2147483647]`, then the call returns; car `i` gets the
velocity `w = min(v[i]+1, vmax, max(0, gap_i - 1))`, lowered by one exactly when the `i`-th draw
is below `p` and `w > 0`, where `gap_i` is taken from the old positions; its new position is the
old one plus the new velocity; and exactly `N` draws are consumed, in index order. -/
theorem one_time_step_nagel_schreckenberg (x v : List Int) (params : Parameters)
    (rng : FloatDraws) (N : Nat) (hN : 1 ≤ N) (hx : x.length = N) (hv : v.length = N)
    (hrange : ∀ i, i < N →
      inInt (v.getD i 0 + 1) ∧ inInt (specGap x params.L N i) ∧
      inInt (specGap x params.L N i - 1) ∧ (i + 1 = N → inInt (x.getD 0 0 - x.getD i 0)) ∧
      inInt (x.getD i 0 +
        specVelocity params.vmax params.p (v.getD i 0) (specGap x params.L N i) (rng i))) :
    ∃ x1 v1 : List Int,
      one_time_step x v params rng = some (x1, v1, fun n => rng (n + N)) ∧
      x1.length = N ∧ v1.length = N ∧
      ∀ i, i < N →
        v1.getD i 0 =
          specVelocity params.vmax params.p (v.getD i 0) (specGap x params.L N i) (rng i) ∧
        x1.getD i 0 = x.getD i 0 + v1.getD i 0 := by
  obtain ⟨x1, v1, hstep, hx1, hv1, hvget, hxget⟩ := one_time_step_eq x v params rng N hN hx hv
  refine ⟨x1, v1, hstep, hx1, hv1, ?_⟩
  intro i hi
  obtain ⟨h1, h2, h3, h4, h5⟩ := hrange i hi
  have hvel : v1.getD i 0 =
      specVelocity params.vmax params.p (v.getD i 0) (specGap x params.L N i) (rng i) := by
    rw [hvget i hi, stepVelocity_eq_spec x N params v rng i hi h1 ⟨h2, h3⟩ h4]
  refine ⟨hvel, ?_⟩
  rw [hxget i hi, hvel]
  exact wrapInt_of_inInt _ h5

/-- A concrete instance: three cars on a ring of ten cells, the second one slowed down. -/
theorem one_time_step_nagel_schreckenberg_witness :
    ∃ x1 v1 : List Int,
      one_time_step [0, 3, 7] [0, 1, 2] ⟨10, 5, 3, 1 / 2, 2, 42, 1, "traffic"⟩
        (fun n => if n = 1 then 0 else 1) = some (x1, v1, fun n => (if n + 3 = 1 then 0 else 1)) ∧
      x1.length = 3 ∧ v1.length = 3 ∧
      ∀ i, i < 3 →
        v1.getD i 0 =
          specVelocity 2 (1 / 2) (([0, 1, 2] : List Int).getD i 0)
            (specGap [0, 3, 7] 10 3 i) (if i = 1 then 0 else 1) ∧
        x1.getD i 0 = ([0, 3, 7] : List Int).getD i 0 + v1.getD i 0 :=
  one_time_step_nagel_schreckenberg [0, 3, 7] [0, 1, 2] ⟨10, 5, 3, 1 / 2, 2, 42, 1, "traffic"⟩
    (fun n => if n = 1 then 0 else 1) 3 (by decide) rfl rfl
    (by
      intro i hi
      interval_cases i <;>
        (unfold inInt; norm_num [specVelocity, specGap]))

/-- C5 (counterexample): for cars at `[1, 4, 6]` with the non-negative velocities
`[2147483647, 0, 1]`, `L = 10`, `vmax = 2`, `p = 0`, the sum `v[0] + 1` wraps and
`one_time_step` leaves car 0 with the velocity `-2147483648`, below 0. -/
theorem one_time_step_velocity_range_overflow :
    (∀ i, i < 3 → 0 ≤ ([2147483647, 0, 1] : List Int).getD i 0) ∧
      ∃ (x1 v1 : List Int) (rng1 : FloatDraws),
        one_time_step [1, 4, 6] [2147483647, 0, 1] ⟨10, 5, 3, 0, 2, 42, 1, "traffic"⟩
          (fun _ => 0) = some (x1, v1, rng1) ∧
        v1.getD 0 0 = -2147483648 ∧ ¬ (0 ≤ v1.getD 0 0) := by
  refine ⟨?_, _, _, _, rfl, ?_, ?_⟩
  · intro i hi
    interval_cases i <;> decide
  · simp [velocityIter, random_next_float, wrapInt, List.range_succ]
  · simp [velocityIter, random_next_float, wrapInt, List.range_succ]

/-- C5 (amended): after `one_time_step` every velocity lies in `[0, vmax]` when `v[i] + 1` does
not overflow.  For `N ≥ 1` cars, `vmax ≥ 0`, velocities in `[0, 2147483646]`, any `p` and any
draws, the call returns and each new velocity `v[i]` satisfies `0 ≤ v[i] ≤ vmax`. -/
theorem one_time_step_velocity_range (x v : List Int) (params : Parameters) (rng : FloatDraws)
    (N : Nat) (hN : 1 ≤ N) (hx : x.length = N) (hv : v.length = N)
    (hvmax : 0 ≤ params.vmax)
    (hvel : ∀ i, i < N → 0 ≤ v.getD i 0 ∧ v.getD i 0 < 2147483647) :
    ∃ (x1 v1 : List Int) (rng1 : FloatDraws),
      one_time_step x v params rng = some (x1, v1, rng1) ∧ v1.length = N ∧
      ∀ i, i < N → 0 ≤ v1.getD i 0 ∧ v1.getD i 0 ≤ params.vmax := by
  obtain ⟨x1, v1, hstep, _, hv1, hvget, _⟩ := one_time_step_eq x v params rng N hN hx hv
  refine ⟨x1, v1, _, hstep, hv1, ?_⟩
  intro i hi
  rw [hvget i hi]
  exact stepVelocity_bounds x (x.getD 0 0) N params v rng i hvmax (hvel i hi).1 (hvel i hi).2

/-- A concrete instance: `L=10`, `N=3`, `vmax=2`, `p=0`. -/
theorem one_time_step_velocity_range_witness :
    ∃ (x1 v1 : List Int) (rng1 : FloatDraws),
      one_time_step [1, 4, 6] [2, 0, 1] ⟨10, 5, 3, 0, 2, 42, 1, "traffic"⟩ (fun _ => 1 / 3)
        = some (x1, v1, rng1) ∧ v1.length = 3 ∧
      ∀ i, i < 3 → 0 ≤ v1.getD i 0 ∧ v1.getD i 0 ≤ 2 :=
  one_time_step_velocity_range [1, 4, 6] [2, 0, 1] ⟨10, 5, 3, 0, 2, 42, 1, "traffic"⟩
    (fun _ => 1 / 3) 3 (by decide) rfl rfl (by decide)
    (by intro i hi; interval_cases i <;> decide)

/-! ## The generator -/

namespace PRNG

theorem wmul_eq (a b : Nat) (ha : a < modulus) (hb : b < modulus) : wmul a b = a * b := by
  unfold wmul wordSize
  apply Nat.mod_eq_of_lt
  have h1 : a * b ≤ 2147483647 * 2147483647 :=
    Nat.mul_le_mul (Nat.le_of_lt ha) (Nat.le_of_lt hb)
  have h2 : 2147483647 * 2147483647 < 2 ^ 64 := by norm_num
  omega

theorem modulus_pos : 0 < modulus := by decide

theorem discardLoop_modEq : ∀ (z b az : Nat), b < modulus → az < modulus →
    discardLoop z b az ≡ az * b ^ z [MOD modulus] ∧ discardLoop z b az < modulus := by
  intro z
  induction z using Nat.strong_induction_on with
  | _ z ih =>
    intro b az hb haz
    rw [discardLoop]
    by_cases hz : z > 0
    · rw [dif_pos hz]
      have hb2 : wmul b b % modulus < modulus := Nat.mod_lt _ modulus_pos
      have haz2 : (if z % 2 ≠ 0 then wmul az b % modulus else az) < modulus := by
        split_ifs
        · exact Nat.mod_lt _ modulus_pos
        · exact haz
      obtain ⟨h1, h2⟩ := ih (z / 2) (Nat.div_lt_self hz (by decide)) _ _ hb2 haz2
      refine ⟨h1.trans ?_, h2⟩
      have hsplit : b ^ z = b ^ (z % 2) * (b * b) ^ (z / 2) := by
        rw [← pow_two, ← pow_mul, ← pow_add, Nat.mod_add_div]
      rw [hsplit, ← mul_assoc, wmul_eq b b hb hb]
      refine Nat.ModEq.mul ?_ ((Nat.mod_modEq _ _).pow _)
      rcases Nat.mod_two_eq_zero_or_one z with h | h
      · rw [h, if_neg (by omega)]
        simp [Nat.ModEq]
      · rw [h, if_pos (by omega), pow_one, wmul_eq az b haz hb]
        exact Nat.mod_modEq _ _
    · rw [dif_neg hz]
      have : z = 0 := by omega
      subst this
      simp [Nat.ModEq, haz]

theorem powModAux_modEq (m : Nat) : ∀ (fuel b z acc : Nat), z < 2 ^ fuel →
    powModAux fuel b z m acc ≡ acc * b ^ z [MOD m] := by
  intro fuel
  induction fuel with
  | zero =>
    intro b z acc hz
    have : z = 0 := by simpa using hz
    subst this
    simp [powModAux, Nat.ModEq]
  | succ n ih =>
    intro b z acc hz
    unfold powModAux
    by_cases h0 : z = 0
    · simp [h0, Nat.ModEq]
    · rw [if_neg h0]
      have hz2 : z / 2 < 2 ^ n := by
        rw [Nat.div_lt_iff_lt_mul (by decide)]
        rw [pow_succ] at hz
        exact hz
      refine (ih _ _ _ hz2).trans ?_
      have hsplit : b ^ z = b ^ (z % 2) * (b * b) ^ (z / 2) := by
        rw [← pow_two, ← pow_mul, ← pow_add, Nat.mod_add_div]
      rw [hsplit, ← mul_assoc]
      refine Nat.ModEq.mul ?_ ((Nat.mod_modEq _ _).pow _)
      rcases Nat.mod_two_eq_zero_or_one z with h | h
      · rw [h, if_neg (by omega)]
        simp [Nat.ModEq]
      · rw [h, if_pos rfl, pow_one]
        exact Nat.mod_modEq _ _

/-- The modulus `2^31 - 1` is prime (Lucas test with the primitive root 7). -/
theorem modulus_prime : Nat.Prime modulus := by
  have hpow : ∀ z, z < 2 ^ 32 → ((7 : ZMod 2147483647) ^ z = 1 ↔
      powModAux 32 7 z 2147483647 1 % 2147483647 = 1) := by
    intro z hz
    have h := powModAux_modEq 2147483647 32 7 z 1 hz
    rw [one_mul] at h
    have h1 : ((7 : ZMod 2147483647) ^ z = 1) ↔ (7 ^ z ≡ 1 [MOD 2147483647]) := by
      rw [← ZMod.natCast_eq_natCast_iff]
      push_cast
      rfl
    rw [h1]
    exact ⟨fun h2 => h.trans h2, fun h2 => h.symm.trans h2⟩
  show Nat.Prime 2147483647
  apply lucas_primality 2147483647 7
  · rw [hpow _ (by norm_num)]
    decide
  · intro q hq hdvd
    have hfac : (2147483647 - 1 : Nat) = 2 * (3 * (3 * (7 * (11 * (31 * (151 * 331)))))) := by
      norm_num
    rw [hfac] at hdvd
    have hone : ∀ {a b : Nat}, Nat.Prime a → q ∣ a * b → q = a ∨ q ∣ b := by
      intro a b ha hab
      rcases (Nat.Prime.dvd_mul hq).1 hab with h | h
      · exact Or.inl ((Nat.prime_dvd_prime_iff_eq hq ha).1 h)
      · exact Or.inr h
    have hcases : q = 2 ∨ q = 3 ∨ q = 7 ∨ q = 11 ∨ q = 31 ∨ q = 151 ∨ q = 331 := by
      rcases hone (by norm_num) hdvd with h | h
      · exact Or.inl h
      rcases hone (by norm_num) h with h | h
      · exact Or.inr (Or.inl h)
      rcases hone (by norm_num) h with h | h
      · exact Or.inr (Or.inl h)
      rcases hone (by norm_num) h with h | h
      · exact Or.inr (Or.inr (Or.inl h))
      rcases hone (by norm_num) h with h | h
      · exact Or.inr (Or.inr (Or.inr (Or.inl h)))
      rcases hone (by norm_num) h with h | h
      · exact Or.inr (Or.inr (Or.inr (Or.inr (Or.inl h))))
      rcases hone (by norm_num) h with h | h
      · exact Or.inr (Or.inr (Or.inr (Or.inr (Or.inr (Or.inl h)))))
      · exact Or.inr (Or.inr (Or.inr (Or.inr (Or.inr (Or.inr
          ((Nat.prime_dvd_prime_iff_eq hq (by norm_num)).1 h))))))
    rcases hcases with h | h | h | h | h | h | h <;> subst h <;>
      (rw [Ne, hpow _ (by norm_num)]; decide)

theorem iterate_next (x : Nat) (hx : x < modulus) (z : Nat) :
    next^[z] x = (multiplier ^ z * x) % modulus := by
  induction z with
  | zero => simp [Nat.mod_eq_of_lt hx]
  | succ n ih =>
    rw [Function.iterate_succ_apply', ih]
    unfold next
    have h : multiplier * (multiplier ^ n * x % modulus) ≡ multiplier * (multiplier ^ n * x)
        [MOD modulus] := Nat.ModEq.mul_left _ (Nat.mod_modEq _ _)
    rw [pow_succ, mul_comm (multiplier ^ n) multiplier, mul_assoc]
    exact h

theorem discard_eq (x z : Nat) (hx1 : 1 ≤ x) (hx2 : x < modulus) :
    discard x z = (multiplier ^ z * x) % modulus := by
  obtain ⟨haz, hlt⟩ := discardLoop_modEq z multiplier 1 (by decide) (by decide)
  rw [one_mul] at haz
  unfold discard
  simp only
  rw [wmul_eq x _ hx2 hlt]
  have hmod : x * discardLoop z multiplier 1 % modulus = (multiplier ^ z * x) % modulus := by
    rw [mul_comm]
    exact Nat.ModEq.mul_right x haz
  rw [hmod]
  unfold seed
  rw [Nat.mod_mod]
  have hne : ¬ (multiplier ^ z * x % modulus = 0) := by
    intro h0
    have hdvd : modulus ∣ multiplier ^ z * x := Nat.dvd_of_mod_eq_zero h0
    rcases (Nat.Prime.dvd_mul modulus_prime).1 hdvd with h | h
    · have h2 := Nat.Prime.dvd_of_dvd_pow modulus_prime h
      have h3 := Nat.le_of_dvd (by decide) h2
      revert h3
      decide
    · have h3 := Nat.le_of_dvd (by omega) h
      omega
  rw [if_neg hne]


/-- C3: `PRNG::discard(z)` is equivalent to `z` single steps of the generator.  For every state
`x` in `[1, 2147483646]` and every `z`, the state after `discard(z)` is the state reached by
applying `x -> (48271 * x) mod 2147483647` exactly `z` times, which is
`(48271^z * x) mod 2147483647`. -/
theorem discard_equiv_steps (x z : Nat) (hx1 : 1 ≤ x) (hx2 : x ≤ 2147483646) :
    discard x z = next^[z] x ∧ discard x z = (48271 ^ z * x) % 2147483647 := by
  have hx : x < modulus := by unfold modulus; omega
  exact ⟨by rw [discard_eq x z hx1 hx, iterate_next x hx z], discard_eq x z hx1 hx⟩

/-- A concrete instance: a skip count beyond the modulus. -/
theorem discard_equiv_steps_witness :
    discard 42 4294967296 = next^[4294967296] 42 ∧
      discard 42 4294967296 = (48271 ^ 4294967296 * 42) % 2147483647 :=
  discard_equiv_steps 42 4294967296 (by decide) (by decide)

end PRNG

/-! ## Claims about the initial state -/

theorem draw_loop (f : List Int × IntDraws → Nat → Option (List Int × IntDraws))
    (g : Nat → Int → Int)
    (hstep : ∀ st i, f st i = some (st.1.set i (g i (st.2 0)), fun n => st.2 (n + 1)))
    (init : List Int) (rng : IntDraws) (k : Nat) :
    ∃ vk : List Int,
      (List.range k).foldlM f (init, rng) = some (vk, fun n => rng (n + k)) ∧
      vk.length = init.length ∧
      ∀ j, vk.getD j 0 = if j < k ∧ j < init.length then g j (rng j) else init.getD j 0 := by
  induction k with
  | zero => exact ⟨init, by simp, rfl, by simp⟩
  | succ k ih =>
    obtain ⟨vk, hfold, hlen, hget⟩ := ih
    refine ⟨vk.set k (g k (rng k)), ?_, by simp [hlen], ?_⟩
    · rw [List.range_succ, List.foldlM_append, hfold]
      simp only [Option.bind_eq_bind, Option.some_bind, List.foldlM_cons, List.foldlM_nil, hstep,
        Nat.zero_add, Option.pure_def, Option.some.injEq, Prod.mk.injEq, true_and]
      funext n
      congr 1
      omega
    · intro j
      rw [getD_set_int, hget j, hlen]
      by_cases hjk : k = j
      · subst hjk
        by_cases hl : k < init.length
        · simp [hl]
        · simp [hl]
      · by_cases hlt : j < k
        · have : j < k + 1 := by omega
          simp [hjk, hlt, this]
        · have : ¬ j < k + 1 := by omega
          simp [hjk, hlt, this]

theorem shift_loop (s : List Int) (k : Nat) :
    ((List.range k).foldl shiftIter s).length = s.length ∧
    ∀ j, ((List.range k).foldl shiftIter s).getD j 0 =
      if j < k ∧ j < s.length then s.getD j 0 + j else s.getD j 0 := by
  induction k with
  | zero => simp
  | succ k ih =>
    obtain ⟨hlen, hget⟩ := ih
    rw [List.range_succ, List.foldl_append]
    simp only [List.foldl_cons, List.foldl_nil, shiftIter]
    refine ⟨by simp [hlen], ?_⟩
    intro j
    rw [getD_set_int, hget j, hget k, hlen]
    by_cases hjk : k = j
    · subst hjk
      by_cases hl : k < s.length
      · simp [hl]
      · simp [hl]
    · by_cases hlt : j < k
      · have : j < k + 1 := by omega
        simp [hjk, hlt, this]
      · have : ¬ j < k + 1 := by omega
        simp [hjk, hlt, this]

theorem getD_mem (l : List Int) (j : Nat) (hj : j < l.length) : l.getD j 0 ∈ l := by
  rw [List.getD_eq_getElem _ _ hj]
  exact List.getElem_mem hj

theorem mem_getD (l : List Int) (a : Int) (ha : a ∈ l) : ∃ j, j < l.length ∧ l.getD j 0 = a := by
  obtain ⟨j, hj, h⟩ := List.getElem_of_mem ha
  exact ⟨j, hj, by rw [List.getD_eq_getElem _ _ hj, h]⟩

/-- For `N < L` and draws within the contract, `random_placement` returns `N` strictly
increasing positions in `[0, L-2]`, consuming `N` draws. -/
theorem random_placement_spec (N : Nat) (L : Int) (rng : IntDraws) (hNL : (N : Int) < L)
    (hdraw : drawsWithin (L - N - 1) N rng) :
    ∃ result : List Int,
      random_placement N L rng = some (result, fun n => rng (n + N)) ∧
      result.length = N ∧
      (∀ i, i + 1 < N → result.getD i 0 < result.getD (i + 1) 0) ∧
      (∀ i, i < N → 0 ≤ result.getD i 0 ∧ result.getD i 0 ≤ L - 2) := by
  have hstep : ∀ st i, placementIter N L st i =
      some (st.1.set i ((fun _ r => r) i (st.2 0)), fun n => st.2 (n + 1)) := by
    intro st i
    unfold placementIter random_next_int
    rw [if_pos (by omega)]
  obtain ⟨raw, hfold, hlen, hget⟩ := draw_loop (placementIter N L) (fun _ r => r) hstep
    (List.replicate N 0) rng N
  rw [List.length_replicate] at hlen
  have hraw : ∀ a, a ∈ raw → 0 ≤ a ∧ a ≤ L - N - 1 := by
    intro a ha
    obtain ⟨j, hj, rfl⟩ := mem_getD raw a ha
    rw [hget j, if_pos ⟨by omega, by simp; omega⟩]
    exact hdraw j (by omega)
  have hperm := List.perm_insertionSort (fun a b : Int => a ≤ b) raw
  have hsorted := List.sorted_insertionSort (fun a b : Int => a ≤ b) raw
  have hslen : (List.insertionSort (fun a b : Int => a ≤ b) raw).length = N := by
    rw [hperm.length_eq, hlen]
  obtain ⟨plen, pget⟩ := shift_loop (List.insertionSort (fun a b : Int => a ≤ b) raw) N
  refine ⟨(List.range N).foldl shiftIter (List.insertionSort (fun a b : Int => a ≤ b) raw),
    ?_, by rw [plen, hslen], ?_, ?_⟩
  · unfold random_placement
    rw [hfold]
  · intro i hi
    rw [pget i, pget (i + 1), if_pos ⟨by omega, by omega⟩, if_pos ⟨hi, by omega⟩]
    have hle : (List.insertionSort (fun a b : Int => a ≤ b) raw).getD i 0 ≤
        (List.insertionSort (fun a b : Int => a ≤ b) raw).getD (i + 1) 0 := by
      rw [List.getD_eq_getElem _ _ (by omega), List.getD_eq_getElem _ _ (by omega)]
      exact (List.pairwise_iff_getElem.1 hsorted) i (i + 1) (by omega) (by omega) (by omega)
    push_cast
    omega
  · intro i hi
    rw [pget i, if_pos ⟨hi, by omega⟩]
    have hmem := getD_mem (List.insertionSort (fun a b : Int => a ≤ b) raw) i (by omega)
    have hb := hraw _ (hperm.mem_iff.1 hmem)
    omega

/-- When `N = L ≥ 1` the first draw of `random_placement` asks for bounds `{0,-1}`. -/
theorem random_placement_full_none (N : Nat) (hN : 1 ≤ N) (rng : IntDraws) :
    random_placement N N rng = none := by
  unfold random_placement
  obtain ⟨m, rfl⟩ : ∃ m, N = m + 1 := ⟨N - 1, by omega⟩
  rw [List.range_succ_eq_map]
  simp [placementIter, random_next_int]


/-- C2 (failing input): on a full ring, `N = L = 3`, the first draw of `random_placement`
asks the integer distribution for the bounds `{0,-1}`, outside its contract, so the call has
no defined result, whatever the draws; the claim promises three positions in `[0, 3)`. -/
theorem random_placement_full_ring_undefined :
    random_placement 3 3 (fun _ => 0) = none :=
  random_placement_full_none 3 (by decide) _

theorem random_velocity_loop (N : Nat) (L vmax : Int) (x : List Int) (rng : IntDraws)
    (hvmax : 0 ≤ vmax) :
    ∃ result : List Int,
      random_velocity N L vmax x rng = some (result, fun n => rng (n + N)) ∧
      result.length = N ∧
      ∀ i, i < N → result.getD i 0 = drawnVelocity N L x i (rng i) := by
  have hstep : ∀ st i, velocityDrawIter N L vmax x st i =
      some (st.1.set i (drawnVelocity N L x i (st.2 0)), fun n => st.2 (n + 1)) := by
    intro st i
    unfold velocityDrawIter random_next_int drawnVelocity
    rw [if_pos hvmax]
  obtain ⟨res, hfold, hlen, hget⟩ := draw_loop (velocityDrawIter N L vmax x)
    (drawnVelocity N L x) hstep (List.replicate N 0) rng N
  rw [List.length_replicate] at hlen
  refine ⟨res, hfold, hlen, ?_⟩
  intro i hi
  rw [hget i, if_pos ⟨hi, by simpa using hi⟩]

/-- For at least two cars in strictly increasing positions spanning less than a lap,
`random_velocity` clamps every draw to the gap `one_time_step` uses. -/
theorem random_velocity_spec (N : Nat) (L vmax : Int) (x : List Int) (rng : IntDraws)
    (hN : 2 ≤ N) (hvmax : 0 ≤ vmax)
    (hord : ∀ i, i + 1 < N → x.getD i 0 < x.getD (i + 1) 0) :
    ∃ result : List Int,
      random_velocity N L vmax x rng = some (result, fun n => rng (n + N)) ∧
      result.length = N ∧
      ∀ i, i < N → result.getD i 0 = min (rng i) (max 0 (specGap x L N i - 1)) := by
  obtain ⟨res, hrun, hlen, hget⟩ := random_velocity_loop N L vmax x rng hvmax
  refine ⟨res, hrun, hlen, ?_⟩
  intro i hi
  rw [hget i hi]
  have hmono : ∀ k, k < N → x.getD 0 0 ≤ x.getD k 0 := by
    intro k
    induction k with
    | zero => intro _; exact le_rfl
    | succ n ih =>
      intro hn
      have h1 := ih (by omega)
      have h2 := hord n hn
      omega
  unfold drawnVelocity specGap
  by_cases h : i + 1 < N
  · have hlt := hord i h
    have hd0 : (if (i : Int) < (N : Int) - 1 then x.getD (i + 1) 0 - x.getD i 0
        else x.getD 0 0 - x.getD (N - 1) 0) = x.getD (i + 1) 0 - x.getD i 0 :=
      if_pos (by omega)
    have hd : (if x.getD (i + 1) 0 - x.getD i 0 < 0 then x.getD (i + 1) 0 - x.getD i 0 + L
        else x.getD (i + 1) 0 - x.getD i 0) = x.getD (i + 1) 0 - x.getD i 0 :=
      if_neg (by omega)
    simp only [hd0, hd, if_pos h]
    split_ifs with hr
    · rw [min_eq_right (le_of_lt hr)]
    · rw [min_eq_left (not_lt.1 hr)]
  · have hiN : i = N - 1 := by omega
    have h0 : x.getD 0 0 < x.getD (N - 1) 0 := by
      have h1 := hmono (N - 2) (by omega)
      have h2 := hord (N - 2) (by omega)
      have h3 : N - 2 + 1 = N - 1 := by omega
      rw [h3] at h2
      omega
    have hd0 : (if (i : Int) < (N : Int) - 1 then x.getD (i + 1) 0 - x.getD i 0
        else x.getD 0 0 - x.getD (N - 1) 0) = x.getD 0 0 - x.getD (N - 1) 0 :=
      if_neg (by omega)
    have hd : (if x.getD 0 0 - x.getD (N - 1) 0 < 0 then x.getD 0 0 - x.getD (N - 1) 0 + L
        else x.getD 0 0 - x.getD (N - 1) 0) = x.getD 0 0 + L - x.getD (N - 1) 0 := by
      rw [if_pos (by omega)]
      ring
    simp only [hd0, hd, if_neg h]
    split_ifs with hr
    · rw [min_eq_right (le_of_lt hr)]
    · rw [min_eq_left (not_lt.1 hr)]

/-- C6 (failing input): for a single car at `x = [3]` on a ring of `L = 10` cells with the
draw `2`, `random_velocity` returns the velocity `0`, while the clamp to the gap of
`one_time_step`, `min(2, max(0, (x[0] + L - x[0]) - 1))`, is `2`. -/
theorem random_velocity_single_car :
    (random_velocity 1 10 2 [3] (fun _ => 2)).map Prod.fst = some [0] ∧
      min (2 : Int) (max 0 (specGap [3] 10 1 0 - 1)) = 2 := by
  constructor
  · rfl
  · decide

/-! ## Claims about the grids of `writer_add` -/

namespace npy

theorem tmod_index (y L : Int) (hy : 0 ≤ y) (hL : 1 ≤ L) :
    Int.tmod y L = y % L ∧ 0 ≤ y % L ∧ y % L < L := by
  refine ⟨Int.tmod_eq_emod hy (by omega), Int.emod_nonneg _ (by omega), Int.emod_lt_of_pos _ (by omega)⟩

theorem sum_set_add_one : ∀ (d : List Int) (c : Nat), c < d.length →
    (d.set c (d.getD c 0 + 1)).sum = d.sum + 1
  | [], c, h => by simp at h
  | a :: t, 0, _ => by
    simp only [List.set_cons_zero, List.getD_cons_zero, List.sum_cons]
    ring
  | a :: t, c + 1, h => by
    have ih := sum_set_add_one t c (by simpa using h)
    simp only [List.set_cons_succ, List.getD_cons_succ, List.sum_cons, ih]
    ring

theorem density_fold (L : Int) (hL : 1 ≤ L) (x : List Int) :
    ∀ d : List Int, d.length = L.toNat → (∀ y, y ∈ x → 0 ≤ y) →
      (x.foldl (densityIter L) d).length = L.toNat ∧
      (∀ c : Nat, (x.foldl (densityIter L) d).getD c 0 =
        d.getD c 0 + if (c : Int) < L then (x.countP (fun y => decide (y % L = c)) : Int) else 0) ∧
      (x.foldl (densityIter L) d).sum = d.sum + x.length := by
  induction x with
  | nil => intro d hd _; simp [hd]
  | cons y t ih =>
    intro d hd hx
    have hy : 0 ≤ y := hx y (List.mem_cons_self _ _)
    obtain ⟨hm, hm0, hmL⟩ := tmod_index y L hy hL
    have hidx : (Int.tmod y L).toNat < d.length := by rw [hd, hm]; omega
    obtain ⟨h1, h2, h3⟩ := ih (densityIter L d y) (by simp [densityIter, hd])
      (fun z hz => hx z (List.mem_cons_of_mem _ hz))
    rw [List.foldl_cons]
    refine ⟨h1, ?_, ?_⟩
    · intro c
      rw [h2 c]
      unfold densityIter
      simp only
      rw [getD_set_int, List.countP_cons]
      by_cases hcL : (c : Int) < L
      · simp only [hcL, if_true]
        by_cases hc : (Int.tmod y L).toNat = c
        · rw [if_pos ⟨hc, hidx⟩, hc]
          have : y % L = (c : Int) := by rw [← hc, hm]; omega
          simp [this]
          ring
        · rw [if_neg (fun h => hc h.1)]
          have : ¬ (y % L = (c : Int)) := by
            intro h
            apply hc
            rw [hm, h]
            simp
          simp [this]
      · simp only [hcL, if_false]
        rw [if_neg]
        rintro ⟨hc, _⟩
        apply hcL
        rw [← hc, hm]
        omega
    · rw [h3]
      unfold densityIter
      simp only
      rw [sum_set_add_one d _ hidx]
      simp
      ring

/-- C8: the density grid written by `writer_add` counts the cars per wrapped cell.  For
`L ≥ 1` and non-negative positions `x`, the bytes appended to the density file are those of a
grid of length `L` whose entry `c` is the number of indices `i` with `x[i] mod L = c`, and
whose entries sum to `N = |x|`. -/
theorem writer_add_density_counts (L : Int) (hL : 1 ≤ L) (x : List Int)
    (hx : ∀ y, y ∈ x → 0 ≤ y) (wrtr : Writer) (hw : wrtr.length = L) (t : Int) (v : List Int) :
    (writer_add wrtr t x v).npydens =
        wrtr.npydens.write (rawBytes (densityGrid L x)) (L.toNat * sizeofInt) ∧
      (densityGrid L x).length = L.toNat ∧
      (∀ c : Nat, (c : Int) < L →
        (densityGrid L x).getD c 0 = x.countP (fun y => decide (y % L = c))) ∧
      (densityGrid L x).sum = x.length := by
  obtain ⟨h1, h2, h3⟩ := density_fold L hL x (List.replicate L.toNat 0) (by simp) hx
  refine ⟨by simp [writer_add, hw], h1, ?_, ?_⟩
  · intro c hc
    have hz : (List.replicate L.toNat (0 : Int)).getD c 0 = 0 := by
      simp only [List.getD_eq_getElem?_getD, List.getElem?_replicate]
      split_ifs <;> rfl
    have := h2 c
    rw [if_pos hc, hz, zero_add] at this
    exact this
  · have hs : (List.replicate L.toNat (0 : Int)).sum = 0 := by simp
    rw [hs, zero_add] at h3
    exact h3

/-- A concrete instance: `x=[2,2,7]`, `L=10` gives `density[2]=2`,
`density[7]=1` and `0` elsewhere. -/
theorem writer_add_density_counts_witness :
    densityGrid 10 [2, 2, 7] = [0, 0, 2, 0, 0, 0, 0, 1, 0, 0] ∧
      ((writer_add (writer_open "traffic" 10) 0 [2, 2, 7] [1, 3, 0]).npydens =
        (writer_open "traffic" 10).npydens.write (rawBytes (densityGrid 10 [2, 2, 7]))
          ((10 : Int).toNat * sizeofInt) ∧
      (densityGrid 10 [2, 2, 7]).length = (10 : Int).toNat ∧
      (∀ c : Nat, (c : Int) < 10 →
        (densityGrid 10 [2, 2, 7]).getD c 0 =
          ([2, 2, 7] : List Int).countP (fun y : Int => decide (y % 10 = (c : Int)))) ∧
      (densityGrid 10 [2, 2, 7]).sum = ([2, 2, 7] : List Int).length) :=
  ⟨by decide, writer_add_density_counts 10 (by decide) [2, 2, 7] (by decide)
    (writer_open "traffic" 10) rfl 0 [1, 3, 0]⟩

theorem find_range' (p : Nat → Bool) : ∀ (n s : Nat),
    (∀ j, (List.range' s n).find? p = some j →
      s ≤ j ∧ j < s + n ∧ p j = true ∧ ∀ j1, s ≤ j1 → j1 < j → p j1 = false) ∧
    ((List.range' s n).find? p = none → ∀ j, s ≤ j → j < s + n → p j = false) := by
  intro n
  induction n with
  | zero =>
    intro s
    refine ⟨by simp, ?_⟩
    intro _ j h1 h2
    omega
  | succ n ih =>
    intro s
    obtain ⟨ih1, ih2⟩ := ih (s + 1)
    rw [List.range'_succ, List.find?_cons]
    cases hp : p s with
    | true =>
      simp only
      refine ⟨?_, by simp⟩
      intro j hj
      have : s = j := by simpa using hj
      subst this
      exact ⟨le_rfl, by omega, hp, fun j1 h1 h2 => by omega⟩
    | false =>
      simp only
      refine ⟨?_, ?_⟩
      · intro j hj
        obtain ⟨h1, h2, h3, h4⟩ := ih1 j hj
        refine ⟨by omega, by omega, h3, ?_⟩
        intro j1 hj1 hj2
        by_cases hs : j1 = s
        · rw [hs]; exact hp
        · exact h4 j1 (by omega) hj2
      · intro hnone j h1 h2
        by_cases hs : j = s
        · rw [hs]; exact hp
        · exact ih2 hnone j (by omega) (by omega)

theorem exists_nearest (V : List Int) (L : Nat) (c0 : Nat) (hc0 : c0 < L)
    (hset : V.getD c0 0 ≠ UNSETMARK) (c : Nat) (hc : c < L) : ∃ j, NearestSet V L c j := by
  classical
  have hex : ∃ j, j < L ∧ V.getD ((c + j) % L) 0 ≠ UNSETMARK := by
    by_cases h : c ≤ c0
    · refine ⟨c0 - c, by omega, ?_⟩
      have : c + (c0 - c) = c0 := by omega
      rw [this, Nat.mod_eq_of_lt hc0]
      exact hset
    · refine ⟨c0 + L - c, by omega, ?_⟩
      have : c + (c0 + L - c) = c0 + L := by omega
      rw [this, Nat.add_mod_right, Nat.mod_eq_of_lt hc0]
      exact hset
  refine ⟨Nat.find hex, (Nat.find_spec hex).1, (Nat.find_spec hex).2, ?_⟩
  intro j1 hj1
  have hmin := Nat.find_min hex hj1
  have hlt : j1 < L := lt_trans hj1 (Nat.find_spec hex).1
  by_contra hne
  exact hmin ⟨hlt, hne⟩

theorem nearest_unique (V : List Int) (L c j j1 : Nat)
    (h : NearestSet V L c j) (h1 : NearestSet V L c j1) : j = j1 := by
  rcases Nat.lt_trichotomy j j1 with hlt | heq | hgt
  · exact absurd (h1.2.2 j hlt) h.2.1
  · exact heq
  · exact absurd (h.2.2 j1 hgt) h1.2.1

theorem fill_keeps_set (V W : List Int) (L k : Nat) (hinv : FillInv V L k W)
    (c : Nat) (hc : c < L) (hset : V.getD c 0 ≠ UNSETMARK) : W.getD c 0 = V.getD c 0 := by
  by_cases hkc : k ≤ c
  · exact hinv.2.1 c hkc
  · obtain ⟨j, hj, hval⟩ := hinv.2.2 c (by omega)
    have h0 : NearestSet V L c 0 := by
      refine ⟨by omega, ?_, fun j1 h => by omega⟩
      rw [Nat.add_zero, Nat.mod_eq_of_lt hc]
      exact hset
    have hj0 := nearest_unique V L c j 0 hj h0
    rw [hval, hj0, Nat.add_zero, Nat.mod_eq_of_lt hc]

theorem fill_step (V W : List Int) (L k c0 : Nat) (hc0 : c0 < L)
    (hset : V.getD c0 0 ≠ UNSETMARK) (hk : k < L) (hinv : FillInv V L k W) :
    FillInv V L (k + 1) (fillIter L W k) := by
  have hWk : W.getD k 0 = V.getD k 0 := hinv.2.1 k le_rfl
  unfold fillIter
  by_cases hVk : V.getD k 0 = UNSETMARK
  · rw [if_pos (by rw [hWk]; exact hVk)]
    obtain ⟨j0, hj0⟩ := exists_nearest V L c0 hc0 hset k hk
    have hj0pos : 1 ≤ j0 := by
      rcases Nat.eq_zero_or_pos j0 with h | h
      · exfalso
        apply hj0.2.1
        rw [h, Nat.add_zero, Nat.mod_eq_of_lt hk]
        exact hVk
      · exact h
    have hmodlt : ∀ j, (k + j) % L < L := fun j => Nat.mod_lt _ (by omega)
    have hWj0 : W.getD ((k + j0) % L) 0 = V.getD ((k + j0) % L) 0 :=
      fill_keeps_set V W L k hinv _ (hmodlt j0) hj0.2.1
    obtain ⟨hsome, hnone⟩ := find_range'
      (fun j => W.getD ((k + j) % L) 0 != UNSETMARK) (L - 1) 1
    unfold scanAhead
    cases hfind : (List.range' 1 (L - 1)).find?
        (fun j => W.getD ((k + j) % L) 0 != UNSETMARK) with
    | none =>
      exfalso
      have hf := hnone hfind j0 hj0pos (by have := hj0.1; omega)
      simp only [bne_eq_false_iff_eq, beq_iff_eq] at hf
      rw [hWj0] at hf
      exact hj0.2.1 hf
    | some j1 =>
      obtain ⟨h1, h2, h3, h4⟩ := hsome j1 hfind
      simp only [bne_iff_ne, ne_eq] at h3
      have hle : j1 ≤ j0 := by
        by_contra hcon
        have hf := h4 j0 hj0pos (by omega)
        simp only [bne_eq_false_iff_eq, beq_iff_eq] at hf
        rw [hWj0] at hf
        exact hj0.2.1 hf
      have hval : W.getD ((k + j1) % L) 0 = V.getD ((k + j0) % L) 0 := by
        rcases Nat.eq_or_lt_of_le hle with heq | hlt
        · rw [heq]; exact hWj0
        · have hV1 : V.getD ((k + j1) % L) 0 = UNSETMARK := hj0.2.2 j1 hlt
          have hc1 : (k + j1) % L < k := by
            by_contra hcon
            apply h3
            rw [hinv.2.1 _ (by omega)]
            exact hV1
          obtain ⟨j2, hj2, hW⟩ := hinv.2.2 _ hc1
          have hshift : ∀ j, ((k + j1) % L + j) % L = (k + (j1 + j)) % L := by
            intro j
            rw [Nat.mod_add_mod, Nat.add_assoc]
          have hnear : NearestSet V L ((k + j1) % L) (j0 - j1) := by
            refine ⟨by have := hj0.1; omega, ?_, ?_⟩
            · rw [hshift, Nat.add_sub_cancel' hle]
              exact hj0.2.1
            · intro j hj
              rw [hshift]
              exact hj0.2.2 _ (by omega)
          have hj2eq := nearest_unique V L _ j2 (j0 - j1) hj2 hnear
          rw [hW, hj2eq, hshift, Nat.add_sub_cancel' hle]
      simp only
      refine ⟨by rw [List.length_set]; exact hinv.1, ?_, ?_⟩
      · intro c hc
        rw [getD_set_int, if_neg (by omega)]
        exact hinv.2.1 c (by omega)
      · intro c hc
        rw [getD_set_int]
        by_cases hck : k = c
        · subst hck
          rw [if_pos ⟨rfl, by rw [hinv.1]; exact hk⟩]
          exact ⟨j0, hj0, hval⟩
        · rw [if_neg (fun h => hck h.1)]
          exact hinv.2.2 c (by omega)
  · rw [if_neg (by rw [hWk]; exact hVk)]
    refine ⟨hinv.1, fun c hc => hinv.2.1 c (by omega), ?_⟩
    intro c hc
    by_cases hck : c = k
    · subst hck
      refine ⟨0, ⟨by omega, ?_, fun j1 h => by omega⟩, ?_⟩
      · rw [Nat.add_zero, Nat.mod_eq_of_lt hk]; exact hVk
      · rw [Nat.add_zero, Nat.mod_eq_of_lt hk]; exact hWk
    · exact hinv.2.2 c (by omega)

theorem fill_loop (V : List Int) (L c0 : Nat) (hc0 : c0 < L)
    (hset : V.getD c0 0 ≠ UNSETMARK) (hV : V.length = L) (k : Nat) (hk : k ≤ L) :
    FillInv V L k ((List.range k).foldl (fillIter L) V) := by
  induction k with
  | zero => exact ⟨hV, fun c _ => rfl, fun c hc => by omega⟩
  | succ k ih =>
    rw [List.range_succ, List.foldl_append]
    exact fill_step V _ L k c0 hc0 hset (by omega) (ih (by omega))

theorem exists_greatest (P : Nat → Prop) : ∀ n : Nat, (∃ i, i < n ∧ P i) →
    ∃ i, i < n ∧ P i ∧ ∀ i1, i < i1 → i1 < n → ¬ P i1 := by
  classical
  intro n
  induction n with
  | zero => rintro ⟨i, hi, _⟩; omega
  | succ n ih =>
    rintro ⟨i, hi, hP⟩
    by_cases hn : P n
    · exact ⟨n, by omega, hn, fun i1 h1 h2 => by omega⟩
    · have hin : i < n := by
        rcases Nat.lt_or_ge i n with h | h
        · exact h
        · have : i = n := by omega
          rw [this] at hP
          exact absurd hP hn
      obtain ⟨i0, h0, hP0, hmax⟩ := ih ⟨i, hin, hP⟩
      refine ⟨i0, by omega, hP0, ?_⟩
      intro i1 h1 h2
      by_cases h3 : i1 = n
      · rw [h3]; exact hn
      · exact hmax i1 h1 (by omega)

theorem car_loop (L : Nat) (x v : List Int) (hcell : ∀ i, i < x.length → cellOf L x i < L)
    (k : Nat) (hk : k ≤ x.length) :
    ((List.range k).foldl (carIter L x v) (List.replicate L UNSETMARK)).length = L ∧
    (∀ c, c < L → (∀ i, i < k → cellOf L x i ≠ c) →
      ((List.range k).foldl (carIter L x v) (List.replicate L UNSETMARK)).getD c 0
        = UNSETMARK) ∧
    (∀ i, i < k → (∀ i1, i < i1 → i1 < k → cellOf L x i1 ≠ cellOf L x i) →
      ((List.range k).foldl (carIter L x v) (List.replicate L UNSETMARK)).getD (cellOf L x i) 0
        = v.getD i 0) := by
  induction k with
  | zero =>
    refine ⟨by simp, ?_, fun i hi => by omega⟩
    intro c hc _
    simp only [List.range_zero, List.foldl_nil, List.getD_eq_getElem?_getD,
      List.getElem?_replicate]
    rw [if_pos hc]
    rfl
  | succ k ih =>
    obtain ⟨hlen, ha, hb⟩ := ih (by omega)
    rw [List.range_succ, List.foldl_append]
    simp only [List.foldl_cons, List.foldl_nil]
    have hstep : ∀ W : List Int, carIter L x v W k = W.set (cellOf L x k) (v.getD k 0) :=
      fun W => rfl
    rw [hstep]
    refine ⟨by rw [List.length_set]; exact hlen, ?_, ?_⟩
    · intro c hcL hc
      rw [getD_set_int, if_neg (fun h => hc k (by omega) h.1)]
      exact ha c hcL (fun i hi => hc i (by omega))
    · intro i hi hlast
      rw [getD_set_int]
      by_cases hik : i = k
      · subst hik
        rw [if_pos ⟨rfl, by rw [hlen]; exact hcell i (by omega)⟩]
      · rw [if_neg (fun h => hlast k (by omega) (by omega) h.1)]
        exact hb i (by omega) (fun i1 h1 h2 => hlast i1 h1 (by omega))

theorem cellOf_spec (L : Nat) (hL : 1 ≤ L) (x : List Int) (hx : ∀ y, y ∈ x → 0 ≤ y)
    (i : Nat) (hi : i < x.length) :
    cellOf L x i < L ∧ ((cellOf L x i : Nat) : Int) = x.getD i 0 % (L : Int) := by
  have hy : 0 ≤ x.getD i 0 := hx _ (getD_mem x i hi)
  unfold cellOf
  rw [Int.tmod_eq_emod hy (by omega)]
  have h1 : 0 ≤ x.getD i 0 % (L : Int) := Int.emod_nonneg _ (by omega)
  have h2 : x.getD i 0 % (L : Int) < (L : Int) := Int.emod_lt_of_pos _ (by omega)
  omega

theorem velocityGrid_nearest (L : Nat) (hL : 1 ≤ L) (x v : List Int) (hN : 1 ≤ x.length)
    (hlen : v.length = x.length) (hx : ∀ y, y ∈ x → 0 ≤ y) (hv : ∀ u, u ∈ v → 0 ≤ u) :
    (velocityGrid L x v).length = L ∧
    ∀ c, c < L →
      (velocityGrid L x v).getD c 0 ≠ UNSETMARK ∧
      ∃ j i, j < L ∧ i < x.length ∧ cellOf L x i = (c + j) % L ∧
        (∀ j1 i1, j1 < j → i1 < x.length → cellOf L x i1 ≠ (c + j1) % L) ∧
        (∀ i1, i < i1 → i1 < x.length → cellOf L x i1 ≠ (c + j) % L) ∧
        (velocityGrid L x v).getD c 0 = v.getD i 0 := by
  have hcell : ∀ i, i < x.length → cellOf L x i < L := fun i hi => (cellOf_spec L hL x hx i hi).1
  obtain ⟨hVlen, ha, hb⟩ := car_loop L x v hcell x.length le_rfl
  have hvne : ∀ i, i < x.length → v.getD i 0 ≠ UNSETMARK := by
    intro i hi
    have := hv _ (getD_mem v i (by omega))
    unfold UNSETMARK
    omega
  -- a cell holds a value exactly when a car sits on it, and then the last car's velocity
  have hsetcell : ∀ c, (∃ i, i < x.length ∧ cellOf L x i = c) →
      ((List.range x.length).foldl (carIter L x v) (List.replicate L UNSETMARK)).getD c 0
        ≠ UNSETMARK := by
    intro c hex
    obtain ⟨i, hi, hci, hmax⟩ := exists_greatest (fun i => cellOf L x i = c) x.length hex
    rw [← hci, hb i hi (fun i1 h1 h2 => by rw [hci]; exact hmax i1 h1 h2)]
    exact hvne i hi
  have hc0 := hsetcell (cellOf L x 0) ⟨0, by omega, rfl⟩
  have hfill := fill_loop _ L (cellOf L x 0) (hcell 0 (by omega)) hc0 hVlen L le_rfl
  have hgrid : velocityGrid L x v = (List.range L).foldl (fillIter L)
      ((List.range x.length).foldl (carIter L x v) (List.replicate L UNSETMARK)) := by
    simp [velocityGrid]
  rw [hgrid]
  refine ⟨hfill.1, ?_⟩
  intro c hc
  obtain ⟨j, hj, hval⟩ := hfill.2.2 c hc
  refine ⟨by rw [hval]; exact hj.2.1, ?_⟩
  have hex : ∃ i, i < x.length ∧ cellOf L x i = (c + j) % L := by
    by_contra hcon
    apply hj.2.1
    apply ha _ (Nat.mod_lt _ (by omega))
    intro i hi heq
    exact hcon ⟨i, hi, heq⟩
  obtain ⟨i, hi, hci, hmax⟩ := exists_greatest (fun i => cellOf L x i = (c + j) % L) x.length hex
  refine ⟨j, i, hj.1, hi, hci, ?_, hmax, ?_⟩
  · intro j1 i1 hj1 hi1 heq
    exact hsetcell _ ⟨i1, hi1, heq⟩ (hj.2.2 j1 hj1)
  · rw [hval, ← hci]
    exact hb i hi (fun i1 h1 h2 => by rw [hci]; exact hmax i1 h1 h2)

/-- C7: the velocity grid written by `writer_add` shows, in every cell, the velocity of the
nearest car at or ahead of it on the ring.  For `L ≥ 1`, `N ≥ 1`, non-negative positions and
velocities, the bytes appended to the velocity file are those of a grid of length `L` in which
no cell holds the unset mark `-1`, and for every cell `c` there are the least offset `j` in
`[0, L-1]` with some car on cell `(c + j) mod L` and the largest index `i` of a car on that
cell, and `velocity[c] = v[i]`. -/
theorem writer_add_velocity_nearest_ahead (L : Nat) (hL : 1 ≤ L) (x v : List Int)
    (hN : 1 ≤ x.length) (hlen : v.length = x.length)
    (hx : ∀ y, y ∈ x → 0 ≤ y) (hv : ∀ u, u ∈ v → 0 ≤ u)
    (wrtr : Writer) (hw : wrtr.length = L) (t : Int) :
    (writer_add wrtr t x v).npyvelo =
        wrtr.npyvelo.write (rawBytes (velocityGrid L x v)) (L * sizeofInt) ∧
      (velocityGrid L x v).length = L ∧
      ∀ c, c < L →
        (velocityGrid L x v).getD c 0 ≠ -1 ∧
        ∃ j i, j < L ∧ i < x.length ∧
          x.getD i 0 % (L : Int) = (((c + j) % L : Nat) : Int) ∧
          (∀ j1 i1, j1 < j → i1 < x.length →
            x.getD i1 0 % (L : Int) ≠ (((c + j1) % L : Nat) : Int)) ∧
          (∀ i1, i < i1 → i1 < x.length →
            x.getD i1 0 % (L : Int) ≠ (((c + j) % L : Nat) : Int)) ∧
          (velocityGrid L x v).getD c 0 = v.getD i 0 := by
  obtain ⟨hlenV, hcells⟩ := velocityGrid_nearest L hL x v hN hlen hx hv
  have hconv : ∀ i n, i < x.length →
      (cellOf L x i = n ↔ x.getD i 0 % (L : Int) = (n : Int)) := by
    intro i n hi
    have := (cellOf_spec L hL x hx i hi).2
    omega
  refine ⟨by simp [writer_add, hw], hlenV, ?_⟩
  intro c hc
  obtain ⟨hne, j, i, hj, hi, hci, hleast, hlast, hval⟩ := hcells c hc
  refine ⟨hne, j, i, hj, hi, (hconv i _ hi).1 hci, ?_, ?_, hval⟩
  · intro j1 i1 hj1 hi1 heq
    exact hleast j1 i1 hj1 hi1 ((hconv i1 _ hi1).2 heq)
  · intro i1 h1 h2 heq
    exact hlast i1 h1 h2 ((hconv i1 _ h2).2 heq)

/-- A concrete instance: `x=[2,2,7]`, `v=[1,3,0]`, `L=10` gives
`velocity[2]=3`, `velocity[3..7]=0` and `velocity[8]=velocity[9]=velocity[0]=velocity[1]=3`. -/
theorem writer_add_velocity_nearest_ahead_witness :
    velocityGrid 10 [2, 2, 7] [1, 3, 0] = [3, 3, 3, 0, 0, 0, 0, 0, 3, 3] ∧
      ((writer_add (writer_open "traffic" 10) 0 [2, 2, 7] [1, 3, 0]).npyvelo =
        (writer_open "traffic" 10).npyvelo.write
          (rawBytes (velocityGrid (10 : Nat) [2, 2, 7] [1, 3, 0])) (10 * sizeofInt) ∧
      (velocityGrid (10 : Nat) [2, 2, 7] [1, 3, 0]).length = 10 ∧
      ∀ c, c < 10 →
        (velocityGrid (10 : Nat) [2, 2, 7] [1, 3, 0]).getD c 0 ≠ -1 ∧
        ∃ j i, j < 10 ∧ i < ([2, 2, 7] : List Int).length ∧
          ([2, 2, 7] : List Int).getD i 0 % ((10 : Nat) : Int) = (((c + j) % 10 : Nat) : Int) ∧
          (∀ j1 i1, j1 < j → i1 < ([2, 2, 7] : List Int).length →
            ([2, 2, 7] : List Int).getD i1 0 % ((10 : Nat) : Int)
              ≠ (((c + j1) % 10 : Nat) : Int)) ∧
          (∀ i1, i < i1 → i1 < ([2, 2, 7] : List Int).length →
            ([2, 2, 7] : List Int).getD i1 0 % ((10 : Nat) : Int)
              ≠ (((c + j) % 10 : Nat) : Int)) ∧
          (velocityGrid (10 : Nat) [2, 2, 7] [1, 3, 0]).getD c 0
            = ([1, 3, 0] : List Int).getD i 0) :=
  ⟨by decide, writer_add_velocity_nearest_ahead 10 (by decide) [2, 2, 7] [1, 3, 0] (by decide)
    rfl (by decide) (by decide) (writer_open "traffic" 10) rfl 0⟩

end npy

/-! ## Claims about the npy files -/

namespace npy

theorem dictText_length (length m : Int) :
    (dictText length m).length = 57 + (decimal m).length + (decimal length).length := by
  have h1 : (bytesOf "\x7b'descr': '<i").length = 13 := by decide
  have h2 : (decimal sizeofInt).length = 1 := by decide
  have h3 : (bytesOf "', 'fortran_order': False, ").length = 27 := by decide
  have h4 : (bytesOf "'shape': (").length = 10 := by decide
  have h5 : (bytesOf "), \x7d\n").length = 5 := by decide
  unfold dictText
  simp only [List.length_append, h1, h2, h3, h4, h5, List.length_singleton]
  omega

theorem decimal_length_le (k : Int) (h0 : 0 ≤ k) (h1 : k < 10000000000) :
    (decimal k).length ≤ 10 := by
  obtain ⟨n, rfl⟩ := Int.eq_ofNat_of_zero_le h0
  have hn : n < 10 ^ 10 := by norm_num; omega
  have := Nat.repr_length n 10 (by decide) hn
  simpa [decimal, Nat.repr] using this

/-- The two branches of `npy_header`, by the sign of the wrapped padding count. -/
theorem npy_header_cases (length m fixlen : Int) (target : Int)
    (ht : target = if fixlen ≠ 0 then fixlen
      else Int.tdiv (10 + ((dictText length m).length : Int) + 1 + 15) 16 * 16) :
    (wrapInt (target - (10 + ((dictText length m).length : Int) + 1)) < 0 →
      npy_header length m fixlen = []) ∧
    (0 ≤ wrapInt (target - (10 + ((dictText length m).length : Int) + 1)) →
      npy_header length m fixlen =
        [0x93, 'N'.toNat, 'U'.toNat, 'M'.toNat, 'P'.toNat, 'Y'.toNat, 0x01, 0x00,
          ((dictText length m).length
            + (wrapInt (target - (10 + ((dictText length m).length : Int) + 1))).toNat + 1) % 256,
          ((dictText length m).length
            + (wrapInt (target - (10 + ((dictText length m).length : Int) + 1))).toNat + 1)
              / 256 % 256]
        ++ (dictText length m
          ++ List.replicate (wrapInt (target - (10 + ((dictText length m).length : Int) + 1))).toNat
            ' '.toNat ++ ['\n'.toNat])) := by
  unfold npy_header
  simp only
  rw [← ht]
  constructor
  · intro h
    rw [if_pos h]
  · intro h
    rw [if_neg (by omega)]
    simp [List.length_append, Nat.add_assoc]

theorem npy_header_padded (length m fixlen : Int) (target : Int)
    (ht : target = if fixlen ≠ 0 then fixlen
      else Int.tdiv (10 + ((dictText length m).length : Int) + 1 + 15) 16 * 16)
    (hle : 10 + ((dictText length m).length : Int) + 1 ≤ target)
    (hhi : target - (10 + ((dictText length m).length : Int) + 1) ≤ 2147483647) :
    npy_header length m fixlen ≠ [] ∧ ((npy_header length m fixlen).length : Int) = target ∧
    ∃ pad : Nat, npy_header length m fixlen =
      [0x93, 'N'.toNat, 'U'.toNat, 'M'.toNat, 'P'.toNat, 'Y'.toNat, 0x01, 0x00,
        ((dictText length m).length + pad + 1) % 256,
        ((dictText length m).length + pad + 1) / 256 % 256]
      ++ (dictText length m ++ List.replicate pad ' '.toNat ++ ['\n'.toNat]) := by
  have hw : wrapInt (target - (10 + ((dictText length m).length : Int) + 1))
      = target - (10 + ((dictText length m).length : Int) + 1) :=
    wrapInt_of_inInt _ (by unfold inInt; omega)
  have hshape := (npy_header_cases length m fixlen target ht).2 (by rw [hw]; omega)
  rw [hw] at hshape
  refine ⟨by rw [hshape]; simp, ?_, ⟨_, hshape⟩⟩
  rw [hshape]
  simp only [List.length_append, List.length_cons, List.length_nil, List.length_replicate]
  push_cast
  rw [Int.toNat_of_nonneg (by omega)]
  omega

theorem npy_header_error (length m fixlen : Int) (target : Int)
    (ht : target = if fixlen ≠ 0 then fixlen
      else Int.tdiv (10 + ((dictText length m).length : Int) + 1 + 15) 16 * 16)
    (hlt : target < 10 + ((dictText length m).length : Int) + 1)
    (hlo : -2147483648 ≤ target - (10 + ((dictText length m).length : Int) + 1)) :
    npy_header length m fixlen = [] := by
  have hw : wrapInt (target - (10 + ((dictText length m).length : Int) + 1))
      = target - (10 + ((dictText length m).length : Int) + 1) :=
    wrapInt_of_inInt _ (by unfold inInt; omega)
  exact (npy_header_cases length m fixlen target ht).1 (by rw [hw]; omega)

theorem npy_header_open_length (length : Int) :
    10 + ((dictText length 1000000000).length : Int) + 1
      ≤ ((npy_header length 1000000000 0).length : Int) ∧
    0 < (npy_header length 1000000000 0).length ∧
    ((npy_header length 1000000000 0).length : Int)
      < 10 + ((dictText length 1000000000).length : Int) + 1 + 16 := by
  have hnn : (0 : Int) ≤ 10 + ((dictText length 1000000000).length : Int) + 1 + 15 := by omega
  have hdiv := Int.tdiv_eq_ediv hnn (by decide : (0 : Int) ≤ 16)
  obtain ⟨_, hlen, _⟩ := npy_header_padded length 1000000000 0 _ rfl
    (by rw [if_neg (by decide), hdiv]; omega) (by rw [if_neg (by decide), hdiv]; omega)
  rw [if_neg (by decide), hdiv] at hlen
  refine ⟨by rw [hlen]; omega, ?_, by rw [hlen]; omega⟩
  have : (0 : Int) < ((npy_header length 1000000000 0).length : Int) := by rw [hlen]; omega
  exact_mod_cast this

/-- A header rewritten for `k` records in the space reserved at open: it is not the error
value, has the reserved length, and is the preamble followed by the dictionary for `(k, length)`,
blanks and a newline. -/
theorem npy_header_reserved (length k : Int) (hk0 : 0 ≤ k) (hk1 : k ≤ 2147483647) :
    npy_header length k ((npy_header length 1000000000 0).length : Int) ≠ [] ∧
      (npy_header length k ((npy_header length 1000000000 0).length : Int)).length
        = (npy_header length 1000000000 0).length ∧
      dictText length k <+:
        (npy_header length k ((npy_header length 1000000000 0).length : Int)).drop 10 := by
  obtain ⟨hopen, hpos, hupper⟩ := npy_header_open_length length
  have hdk : (decimal k).length ≤ 10 := decimal_length_le k hk0 (by omega)
  have hd0 : (decimal 1000000000).length = 10 := by decide
  have hlk := dictText_length length k
  have hl0 := dictText_length length 1000000000
  obtain ⟨hne, hlen, pad, hshape⟩ := npy_header_padded length k
    ((npy_header length 1000000000 0).length : Int) ((npy_header length 1000000000 0).length : Int)
    (by rw [if_pos (by omega)]) (by omega) (by omega)
  refine ⟨hne, by exact_mod_cast hlen, ?_⟩
  rw [hshape]
  exact ⟨List.replicate pad ' '.toNat ++ ['\n'.toNat], by simp⟩

/-- C10: closing never grows, shrinks or fails the header.  For every `length` and every record
count `k` with `0 ≤ k ≤ 2147483647`, with `H` the byte length of the header written at open
(placeholder count `1000000000`), `npy_header(length, k, H)` is not the empty error value and
has byte length exactly `H`. -/
theorem npy_header_close_same_length (length k : Int) (hk0 : 0 ≤ k) (hk1 : k ≤ 2147483647) :
    npy_header length k ((npy_header length 1000000000 0).length : Int) ≠ [] ∧
      (npy_header length k ((npy_header length 1000000000 0).length : Int)).length
        = (npy_header length 1000000000 0).length :=
  ⟨(npy_header_reserved length k hk0 hk1).1, (npy_header_reserved length k hk0 hk1).2.1⟩

/-- A concrete instance: grid length 500, 501 records. -/
theorem npy_header_close_same_length_witness :
    npy_header 500 501 ((npy_header 500 1000000000 0).length : Int) ≠ [] ∧
      (npy_header 500 501 ((npy_header 500 1000000000 0).length : Int)).length
        = (npy_header 500 1000000000 0).length :=
  npy_header_close_same_length 500 501 (by decide) (by decide)

theorem intBytes_length (n : Int) : (intBytes n).length = 4 := rfl

theorem rawBytes_length (xs : List Int) : (rawBytes xs).length = xs.length * 4 := by
  induction xs with
  | nil => rfl
  | cons a t ih =>
    simp only [rawBytes, List.flatMap_cons, List.length_append, List.length_cons] at ih ⊢
    rw [ih, intBytes_length]
    omega

theorem densityGrid_length (L : Int) (x : List Int) : (densityGrid L x).length = L.toNat := by
  unfold densityGrid
  have h : ∀ (x d : List Int), (x.foldl (densityIter L) d).length = d.length := by
    intro x
    induction x with
    | nil => intro d; rfl
    | cons y t ih =>
      intro d
      rw [List.foldl_cons, ih]
      simp [densityIter]
  rw [h]
  simp

theorem scanAhead_length (L : Nat) (W : List Int) (i : Nat) :
    (scanAhead L W i).length = W.length := by
  unfold scanAhead
  split <;> simp

theorem fillIter_length (L : Nat) (W : List Int) (i : Nat) :
    (fillIter L W i).length = W.length := by
  unfold fillIter
  split_ifs
  · exact scanAhead_length L W i
  · rfl

theorem foldl_length_eq {α : Type} (f : List Int → α → List Int)
    (hf : ∀ W a, (f W a).length = W.length) (l : List α) :
    ∀ W, (l.foldl f W).length = W.length := by
  induction l with
  | nil => intro W; rfl
  | cons a t ih => intro W; rw [List.foldl_cons, ih, hf]

theorem velocityGrid_length (L : Int) (x v : List Int) :
    (velocityGrid L x v).length = L.toNat := by
  unfold velocityGrid
  simp only
  rw [foldl_length_eq _ (fillIter_length L.toNat), foldl_length_eq _ (fun W i => by simp [carIter])]
  simp

theorem write_at_end (data src : List Nat) (n : Nat) (hn : src.length ≤ n) :
    (OStream.mk data data.length).write src n = ⟨data ++ src, (data ++ src).length⟩ := by
  simp [OStream.write, List.take_of_length_le hn]

theorem rewrite_front (hdr hdr1 recs : List Nat) (p : Nat) (h : hdr1.length = hdr.length) :
    (((OStream.mk (hdr ++ recs) p).seekBeg).write hdr1 hdr.length).seekEnd
      = ⟨hdr1 ++ recs, (hdr1 ++ recs).length⟩ := by
  simp [OStream.write, OStream.seekBeg, OStream.seekEnd, List.take_of_length_le (le_of_eq h), h]

theorem writer_open_eq (filename : String) (L : Int) :
    writer_open filename L =
      writerWith (npy_header L 1000000000 0) (npy_header 1 1000000000 0) [] [] [] L 0 := by
  have h := fun (src : List Nat) => write_at_end [] src src.length le_rfl
  simp only [List.length_nil, List.nil_append] at h
  simp only [writer_open, writerWith, Int.toNat_ofNat, h, List.append_nil]

theorem writer_add_eq (hdr2 hdr1 D V T : List Nat) (L n : Int) (t : Int) (x v : List Int) :
    writer_add (writerWith hdr2 hdr1 D V T L n) t x v =
      writerWith hdr2 hdr1 (D ++ rawBytes (densityGrid L x))
        (V ++ rawBytes (velocityGrid L x v)) (T ++ intBytes t) L (n + 1) := by
  have hD : (rawBytes (densityGrid L x)).length ≤ L.toNat * sizeofInt := by
    rw [rawBytes_length, densityGrid_length]; exact le_rfl
  have hV : (rawBytes (velocityGrid L x v)).length ≤ L.toNat * sizeofInt := by
    rw [rawBytes_length, velocityGrid_length]; exact le_rfl
  have hT : (intBytes t).length ≤ sizeofInt := le_rfl
  simp only [writer_add, writerWith, write_at_end _ _ _ hD, write_at_end _ _ _ hV,
    write_at_end _ _ _ hT, List.append_assoc]

theorem writer_add_fold (hdr2 hdr1 : List Nat) (L : Int)
    (adds : List (Int × List Int × List Int)) :
    ∀ (D V T : List Nat) (n : Int),
      adds.foldl (fun w a => writer_add w a.1 a.2.1 a.2.2) (writerWith hdr2 hdr1 D V T L n) =
        writerWith hdr2 hdr1
          (D ++ adds.flatMap (fun a => rawBytes (densityGrid L a.2.1)))
          (V ++ adds.flatMap (fun a => rawBytes (velocityGrid L a.2.1 a.2.2)))
          (T ++ adds.flatMap (fun a => intBytes a.1)) L (n + adds.length) := by
  induction adds with
  | nil => intro D V T n; simp
  | cons a t ih =>
    intro D V T n
    rw [List.foldl_cons, writer_add_eq, ih]
    simp only [List.flatMap_cons, List.append_assoc, List.length_cons]
    push_cast
    rw [add_assoc, add_comm 1]

theorem writer_close_eq (hdr2 hdr1 D V T : List Nat) (L n : Int)
    (h2 : (npy_header L n (hdr2.length : Int)).length = hdr2.length)
    (h1 : (npy_header 1 n (hdr1.length : Int)).length = hdr1.length) :
    writer_close (writerWith hdr2 hdr1 D V T L n) =
      ⟨⟨npy_header L n hdr2.length ++ D, (npy_header L n hdr2.length ++ D).length⟩,
        ⟨npy_header L n hdr2.length ++ V, (npy_header L n hdr2.length ++ V).length⟩,
        ⟨npy_header 1 n hdr1.length ++ T, (npy_header 1 n hdr1.length ++ T).length⟩,
        L, n, hdr2.length, hdr2.length, hdr1.length⟩ := by
  simp only [writer_close, writerWith, Int.toNat_ofNat, rewrite_front _ _ _ _ h2,
    rewrite_front _ _ _ _ h1]

theorem records_length (L : Int) (adds : List (Int × List Int × List Int)) :
    (adds.flatMap (fun a => rawBytes (densityGrid L a.2.1))).length
        = adds.length * (L.toNat * sizeofInt) ∧
    (adds.flatMap (fun a => rawBytes (velocityGrid L a.2.1 a.2.2))).length
        = adds.length * (L.toNat * sizeofInt) ∧
    (adds.flatMap (fun a => intBytes a.1)).length = adds.length * sizeofInt := by
  induction adds with
  | nil => simp
  | cons a t ih =>
    obtain ⟨i1, i2, i3⟩ := ih
    simp only [List.flatMap_cons, List.length_append, List.length_cons, i1, i2, i3,
      rawBytes_length, densityGrid_length, velocityGrid_length, intBytes_length]
    refine ⟨?_, ?_, ?_⟩ <;> (unfold sizeofInt; ring)


/-- C9: writer protocol bookkeeping.  For a grid length `L ≥ 1` and `k` calls of `writer_add`
(`k` an `int` record count, `k = 0` included) between `writer_open` and `writer_close`: the
density and velocity files are a header of the size reserved at open followed by exactly
`k*L*sizeof(int)` record bytes, the time file is its header followed by `k*sizeof(int)` bytes,
the record bytes are the ones appended before the close, and the rewritten headers carry the
dictionary for the shapes `(k,L)` and `(k,1)`. -/
theorem writer_protocol_bookkeeping (filename : String) (L : Int) (_hL : 1 ≤ L)
    (adds : List (Int × List Int × List Int)) (hk : adds.length ≤ 2147483647) :
    ∃ (hdr2 hdr1 D V T : List Nat),
      (addAll filename L adds).npydens.data = npy_header L 1000000000 0 ++ D ∧
      (addAll filename L adds).npyvelo.data = npy_header L 1000000000 0 ++ V ∧
      (addAll filename L adds).npytime.data = npy_header 1 1000000000 0 ++ T ∧
      (writeAll filename L adds).npydens.data = hdr2 ++ D ∧
      (writeAll filename L adds).npyvelo.data = hdr2 ++ V ∧
      (writeAll filename L adds).npytime.data = hdr1 ++ T ∧
      hdr2.length = (npy_header L 1000000000 0).length ∧
      hdr1.length = (npy_header 1 1000000000 0).length ∧
      D.length = adds.length * (L.toNat * sizeofInt) ∧
      V.length = adds.length * (L.toNat * sizeofInt) ∧
      T.length = adds.length * sizeofInt ∧
      hdr2 = npy_header L adds.length ((npy_header L 1000000000 0).length : Int) ∧
      hdr1 = npy_header 1 adds.length ((npy_header 1 1000000000 0).length : Int) ∧
      dictText L adds.length <+: hdr2.drop 10 ∧
      dictText 1 adds.length <+: hdr1.drop 10 := by
  obtain ⟨_, h2len, h2shape⟩ := npy_header_reserved L adds.length (by omega) (by omega)
  obtain ⟨_, h1len, h1shape⟩ := npy_header_reserved 1 adds.length (by omega) (by omega)
  obtain ⟨lD, lV, lT⟩ := records_length L adds
  have hadd : addAll filename L adds =
      writerWith (npy_header L 1000000000 0) (npy_header 1 1000000000 0)
        (adds.flatMap (fun a => rawBytes (densityGrid L a.2.1)))
        (adds.flatMap (fun a => rawBytes (velocityGrid L a.2.1 a.2.2)))
        (adds.flatMap (fun a => intBytes a.1)) L adds.length := by
    unfold addAll
    rw [writer_open_eq, writer_add_fold]
    simp
  have hclose := writer_close_eq (npy_header L 1000000000 0) (npy_header 1 1000000000 0)
    (adds.flatMap (fun a => rawBytes (densityGrid L a.2.1)))
    (adds.flatMap (fun a => rawBytes (velocityGrid L a.2.1 a.2.2)))
    (adds.flatMap (fun a => intBytes a.1)) L adds.length h2len h1len
  refine ⟨npy_header L adds.length ((npy_header L 1000000000 0).length : Int),
    npy_header 1 adds.length ((npy_header 1 1000000000 0).length : Int),
    adds.flatMap (fun a => rawBytes (densityGrid L a.2.1)),
    adds.flatMap (fun a => rawBytes (velocityGrid L a.2.1 a.2.2)),
    adds.flatMap (fun a => intBytes a.1),
    ?_, ?_, ?_, ?_, ?_, ?_, h2len, h1len, lD, lV, lT, rfl, rfl, h2shape, h1shape⟩
  · rw [hadd]; rfl
  · rw [hadd]; rfl
  · rw [hadd]; rfl
  · unfold writeAll; rw [hadd, hclose]
  · unfold writeAll; rw [hadd, hclose]
  · unfold writeAll; rw [hadd, hclose]

/-- A concrete instance: three cells, two snapshots. -/
theorem writer_protocol_bookkeeping_witness :
    ∃ (hdr2 hdr1 D V T : List Nat),
      (addAll "traffic" 3 [(0, [1], [2]), (1, [2], [1])]).npydens.data
        = npy_header 3 1000000000 0 ++ D ∧
      (addAll "traffic" 3 [(0, [1], [2]), (1, [2], [1])]).npyvelo.data
        = npy_header 3 1000000000 0 ++ V ∧
      (addAll "traffic" 3 [(0, [1], [2]), (1, [2], [1])]).npytime.data
        = npy_header 1 1000000000 0 ++ T ∧
      (writeAll "traffic" 3 [(0, [1], [2]), (1, [2], [1])]).npydens.data = hdr2 ++ D ∧
      (writeAll "traffic" 3 [(0, [1], [2]), (1, [2], [1])]).npyvelo.data = hdr2 ++ V ∧
      (writeAll "traffic" 3 [(0, [1], [2]), (1, [2], [1])]).npytime.data = hdr1 ++ T ∧
      hdr2.length = (npy_header 3 1000000000 0).length ∧
      hdr1.length = (npy_header 1 1000000000 0).length ∧
      D.length = ([(0, [1], [2]), (1, [2], [1])] : List (Int × List Int × List Int)).length
        * ((3 : Int).toNat * sizeofInt) ∧
      V.length = ([(0, [1], [2]), (1, [2], [1])] : List (Int × List Int × List Int)).length
        * ((3 : Int).toNat * sizeofInt) ∧
      T.length = ([(0, [1], [2]), (1, [2], [1])] : List (Int × List Int × List Int)).length
        * sizeofInt ∧
      hdr2 = npy_header 3
        (([(0, [1], [2]), (1, [2], [1])] : List (Int × List Int × List Int)).length : Nat)
        ((npy_header 3 1000000000 0).length : Int) ∧
      hdr1 = npy_header 1
        (([(0, [1], [2]), (1, [2], [1])] : List (Int × List Int × List Int)).length : Nat)
        ((npy_header 1 1000000000 0).length : Int) ∧
      dictText 3
        (([(0, [1], [2]), (1, [2], [1])] : List (Int × List Int × List Int)).length : Nat)
        <+: hdr2.drop 10 ∧
      dictText 1
        (([(0, [1], [2]), (1, [2], [1])] : List (Int × List Int × List Int)).length : Nat)
        <+: hdr1.drop 10 :=
  writer_protocol_bookkeeping "traffic" 3 (by decide) [(0, [1], [2]), (1, [2], [1])] (by decide)

end npy

/-! ## Further claims about the npy header and the grids -/

namespace npy

theorem npy_header_shape (length m fixlen : Int) (hne : npy_header length m fixlen ≠ []) :
    ∃ pad : Nat, npy_header length m fixlen =
      [0x93, 'N'.toNat, 'U'.toNat, 'M'.toNat, 'P'.toNat, 'Y'.toNat, 0x01, 0x00,
        ((dictText length m).length + pad + 1) % 256,
        ((dictText length m).length + pad + 1) / 256 % 256]
      ++ (dictText length m ++ List.replicate pad ' '.toNat ++ ['\n'.toNat]) := by
  obtain ⟨herr, hok⟩ := npy_header_cases length m fixlen _ rfl
  by_cases h : wrapInt ((if fixlen ≠ 0 then fixlen
      else Int.tdiv (10 + ((dictText length m).length : Int) + 1 + 15) 16 * 16)
      - (10 + ((dictText length m).length : Int) + 1)) < 0
  · exact absurd (herr h) hne
  · exact ⟨_, hok (not_lt.1 h)⟩

theorem npy_header_default (length m : Int) :
    npy_header length m 0 ≠ [] ∧
      ((npy_header length m 0).length : Int)
        = (10 + ((dictText length m).length : Int) + 1 + 15) / 16 * 16 := by
  have hnn : (0 : Int) ≤ 10 + ((dictText length m).length : Int) + 1 + 15 := by omega
  have hdiv := Int.tdiv_eq_ediv hnn (by decide : (0 : Int) ≤ 16)
  obtain ⟨hne, hlen, _⟩ := npy_header_padded length m 0 _ rfl
    (by rw [if_neg (by decide), hdiv]; omega) (by rw [if_neg (by decide), hdiv]; omega)
  rw [if_neg (by decide), hdiv] at hlen
  exact ⟨hne, hlen⟩

/-- C11: with no fixed length requested, `npy_header(length, maxsequence, 0)` never returns the
empty error value; its byte length is a positive multiple of 16, the smallest one that is at
least `10 + |descriptor text| + 1`; it ends with a newline byte, and between the descriptor
text and that newline there are only spaces. -/
theorem npy_header_default_multiple_of_16 (length maxsequence : Int) :
    npy_header length maxsequence 0 ≠ [] ∧
      0 < (npy_header length maxsequence 0).length ∧
      16 ∣ (npy_header length maxsequence 0).length ∧
      10 + (dictText length maxsequence).length + 1 ≤ (npy_header length maxsequence 0).length ∧
      (npy_header length maxsequence 0).length < 10 + (dictText length maxsequence).length + 1 + 16 ∧
      (npy_header length maxsequence 0).getLast? = some '\n'.toNat ∧
      ∃ pad : Nat, (npy_header length maxsequence 0).drop 10 =
        dictText length maxsequence ++ List.replicate pad ' '.toNat ++ ['\n'.toNat] := by
  obtain ⟨hne, hlen⟩ := npy_header_default length maxsequence
  obtain ⟨pad, hshape⟩ := npy_header_shape length maxsequence 0 hne
  refine ⟨hne, by omega, by omega, by omega, by omega, ?_, pad, ?_⟩
  · rw [hshape, ← List.append_assoc, List.getLast?_concat]
  · rw [hshape]
    simp

/-- C12 (counterexample): for `fixlen = -2147483648` the `int` subtraction `fixlen - headlen`
wraps to a non-negative padding count, so `npy_header(1, 1, -2147483648)` takes the non-error
branch and is not empty, although `fixlen < 10 + |descriptor text| + 1`. -/
theorem npy_header_fixlen_wraps :
    npy_header 1 1 (-2147483648) ≠ [] ∧
      (-2147483648 : Int) < 10 + ((dictText 1 1).length : Int) + 1 ∧
      (-2147483648 : Int) ≠ 0 := by
  have hd : ((dictText 1 1).length : Int) = 59 := by decide
  obtain ⟨_, hok⟩ := npy_header_cases 1 1 (-2147483648) (-2147483648)
    (by rw [if_pos (by decide)])
  refine ⟨?_, by rw [hd]; decide, by decide⟩
  rw [hok (by rw [hd]; decide)]
  simp

/-- C12 (amended): `npy_header` fails exactly when the requested fixed length is too small,
as long as the `int` subtraction `fixlen - headlen` does not overflow.  For every `length`,
`maxsequence` and `int` value `fixlen ≠ 0` with
`fixlen - (10 + |descriptor text| + 1) ≥ -2147483648`, the result is the empty error value if
and only if `fixlen < 10 + |descriptor text| + 1`, and otherwise it is a header of exactly
`fixlen` bytes. -/
theorem npy_header_fixlen_error_iff (length maxsequence fixlen : Int) (hfix : fixlen ≠ 0)
    (hint : fixlen ≤ 2147483647)
    (hsub : -2147483648 ≤ fixlen - (10 + ((dictText length maxsequence).length : Int) + 1)) :
    (npy_header length maxsequence fixlen = [] ↔
        fixlen < 10 + ((dictText length maxsequence).length : Int) + 1) ∧
      (¬ fixlen < 10 + ((dictText length maxsequence).length : Int) + 1 →
        npy_header length maxsequence fixlen ≠ [] ∧
        ((npy_header length maxsequence fixlen).length : Int) = fixlen) := by
  have ht : fixlen = if fixlen ≠ 0 then fixlen
      else Int.tdiv (10 + ((dictText length maxsequence).length : Int) + 1 + 15) 16 * 16 := by
    rw [if_pos hfix]
  have hok : ¬ fixlen < 10 + ((dictText length maxsequence).length : Int) + 1 →
      npy_header length maxsequence fixlen ≠ [] ∧
      ((npy_header length maxsequence fixlen).length : Int) = fixlen := by
    intro h
    obtain ⟨hne, hlen, _⟩ := npy_header_padded length maxsequence fixlen fixlen ht (not_lt.1 h)
      (by omega)
    exact ⟨hne, hlen⟩
  refine ⟨⟨?_, ?_⟩, hok⟩
  · intro hempty
    by_contra h
    exact (hok h).1 hempty
  · intro h
    exact npy_header_error length maxsequence fixlen fixlen ht h hsub

/-- A concrete instance: a header for `(5,10)` does not fit in 64 bytes but fills 80. -/
theorem npy_header_fixlen_error_iff_witness :
    ((npy_header 10 5 64 = [] ↔ (64 : Int) < 10 + ((dictText 10 5).length : Int) + 1) ∧
      (¬ (64 : Int) < 10 + ((dictText 10 5).length : Int) + 1 →
        npy_header 10 5 64 ≠ [] ∧ ((npy_header 10 5 64).length : Int) = 64)) ∧
    npy_header 10 5 64 = [] ∧ (npy_header 10 5 80).length = 80 :=
  ⟨npy_header_fixlen_error_iff 10 5 64 (by decide) (by decide) (by decide), by decide, by decide⟩

theorem increasing_getD (x : List Int) (N : Nat)
    (hord : ∀ i, i + 1 < N → x.getD i 0 < x.getD (i + 1) 0) :
    ∀ d i, i + d < N → x.getD i 0 ≤ x.getD (i + d) 0 ∧ (0 < d → x.getD i 0 < x.getD (i + d) 0) := by
  intro d
  induction d with
  | zero => intro i _; exact ⟨le_rfl, fun h => absurd h (lt_irrefl 0)⟩
  | succ d ih =>
    intro i hi
    have h1 := (ih i (by omega)).1
    have h2 := hord (i + d) (by omega)
    have h3 : i + d + 1 = i + (d + 1) := by omega
    rw [h3] at h2
    exact ⟨by omega, fun _ => by omega⟩

theorem countP_le_one_of_pairwise (L : Int) (c : Int) :
    ∀ l : List Int, l.Pairwise (fun a b => a % L ≠ b % L) →
      l.countP (fun y => decide (y % L = c)) ≤ 1 := by
  intro l
  induction l with
  | nil => intro _; simp
  | cons a t ih =>
    intro hp
    rw [List.pairwise_cons] at hp
    rw [List.countP_cons]
    by_cases ha : a % L = c
    · have hzero : t.countP (fun y => decide (y % L = c)) = 0 := by
        rw [List.countP_eq_zero]
        intro b hb
        simp only [decide_eq_true_eq]
        intro hbc
        exact hp.1 b hb (by rw [ha, hbc])
      rw [hzero]
      simp [ha]
    · have := ih hp.2
      simp [ha]
      exact this

theorem wrapped_distinct (L : Int) (x : List Int) (N : Nat)
    (hord : ∀ i, i + 1 < N → x.getD i 0 < x.getD (i + 1) 0)
    (hspan : x.getD (N - 1) 0 < x.getD 0 0 + L) :
    ∀ i j, i < j → j < N → x.getD i 0 % L ≠ x.getD j 0 % L := by
  intro i j hij hj heq
  have hmono := increasing_getD x N hord
  have h1 := (hmono (j - i) i (by omega)).2 (by omega)
  have h2 := (hmono (N - 1 - j) j (by omega)).1
  have h3 := (hmono i 0 (by omega)).1
  have e1 : i + (j - i) = j := by omega
  have e2 : j + (N - 1 - j) = N - 1 := by omega
  have e3 : 0 + i = i := by omega
  rw [e1] at h1
  rw [e2] at h2
  rw [e3] at h3
  have hdvd : L ∣ x.getD j 0 - x.getD i 0 := by
    apply Int.dvd_of_emod_eq_zero
    rw [Int.sub_emod, heq, sub_self, Int.zero_emod]
  have hle := Int.le_of_dvd (by omega) hdvd
  omega

/-- C14: in the density grid an entry is 0 for no car and 1 for a car.  For `L ≥ 1` and
positions that are strictly increasing with `x[N-1] < x[0] + L` and `x[0] ≥ 0`, the wrapped
positions `x[i] mod L` are pairwise distinct, and every entry of the density grid that
`writer_add` writes is 0 or 1. -/
theorem writer_add_density_zero_or_one (L : Int) (hL : 1 ≤ L) (x : List Int) (N : Nat)
    (hx : x.length = N)
    (hord : ∀ i, i + 1 < N → x.getD i 0 < x.getD (i + 1) 0)
    (hspan : x.getD (N - 1) 0 < x.getD 0 0 + L) (h0 : 0 ≤ x.getD 0 0)
    (wrtr : Writer) (hw : wrtr.length = L) (t : Int) (v : List Int) :
    (writer_add wrtr t x v).npydens =
        wrtr.npydens.write (rawBytes (densityGrid L x)) (L.toNat * sizeofInt) ∧
      (∀ i j, i < j → j < N → x.getD i 0 % L ≠ x.getD j 0 % L) ∧
      ∀ c, c < (densityGrid L x).length →
        (densityGrid L x).getD c 0 = 0 ∨ (densityGrid L x).getD c 0 = 1 := by
  have hdist := wrapped_distinct L x N hord hspan
  have hnonneg : ∀ y, y ∈ x → 0 ≤ y := by
    intro y hy
    obtain ⟨i, hi, rfl⟩ := mem_getD x y hy
    have := (increasing_getD x N hord i 0 (by omega)).1
    rw [Nat.zero_add] at this
    omega
  obtain ⟨hlen, hcount, _⟩ := density_fold L hL x (List.replicate L.toNat 0) (by simp) hnonneg
  have hpair : x.Pairwise (fun a b => a % L ≠ b % L) := by
    rw [List.pairwise_iff_getElem]
    intro i j hi hj hij
    have := hdist i j hij (by omega)
    rw [List.getD_eq_getElem _ _ hi, List.getD_eq_getElem _ _ hj] at this
    exact this
  refine ⟨by simp [writer_add, hw], hdist, ?_⟩
  intro c hc
  have hgrid : densityGrid L x = x.foldl (densityIter L) (List.replicate L.toNat 0) := rfl
  rw [hgrid] at hc ⊢
  rw [hlen] at hc
  have hcL : (c : Int) < L := by omega
  have hz : (List.replicate L.toNat (0 : Int)).getD c 0 = 0 := by
    simp only [List.getD_eq_getElem?_getD, List.getElem?_replicate]
    rw [if_pos (by omega)]
    rfl
  have hval := hcount c
  rw [if_pos hcL, hz, zero_add] at hval
  have hle := countP_le_one_of_pairwise L c x hpair
  rw [hval]
  omega

/-- A concrete instance: three cars at `[8, 10, 15]` on a ring of ten cells. -/
theorem writer_add_density_zero_or_one_witness :
    densityGrid 10 [8, 10, 15] = [1, 0, 0, 0, 0, 1, 0, 0, 1, 0] ∧
      ((writer_add (writer_open "traffic" 10) 0 [8, 10, 15] [1, 2, 0]).npydens =
        (writer_open "traffic" 10).npydens.write (rawBytes (densityGrid 10 [8, 10, 15]))
          ((10 : Int).toNat * sizeofInt) ∧
      (∀ i j, i < j → j < 3 →
        ([8, 10, 15] : List Int).getD i 0 % 10 ≠ ([8, 10, 15] : List Int).getD j 0 % 10) ∧
      ∀ c, c < (densityGrid 10 [8, 10, 15]).length →
        (densityGrid 10 [8, 10, 15]).getD c 0 = 0 ∨ (densityGrid 10 [8, 10, 15]).getD c 0 = 1) :=
  ⟨by decide, writer_add_density_zero_or_one 10 (by decide) [8, 10, 15] 3 rfl
    (by intro i hi; have hi2 : i < 2 := by omega
        interval_cases i <;> decide)
    (by decide) (by decide) (writer_open "traffic" 10) rfl 0 [1, 2, 0]⟩

theorem getD_replicate_unset (L c : Nat) (hc : c < L) :
    (List.replicate L UNSETMARK).getD c 0 = UNSETMARK := by
  simp only [List.getD_eq_getElem?_getD, List.getElem?_replicate]
  rw [if_pos hc]
  rfl

theorem fillIter_unset (L : Nat) (i : Nat) :
    fillIter L (List.replicate L UNSETMARK) i = List.replicate L UNSETMARK := by
  unfold fillIter
  split_ifs
  · unfold scanAhead
    have hnone : (List.range' 1 (L - 1)).find?
        (fun j => (List.replicate L UNSETMARK).getD ((i + j) % L) 0 != UNSETMARK) = none := by
      rw [List.find?_eq_none]
      intro j hj
      have hL : 0 < L := by
        rw [List.mem_range'_1] at hj
        omega
      rw [getD_replicate_unset L _ (Nat.mod_lt _ hL)]
      simp
    rw [hnone]
  · rfl

theorem fill_unset (L : Nat) (k : Nat) :
    (List.range k).foldl (fillIter L) (List.replicate L UNSETMARK) = List.replicate L UNSETMARK := by
  induction k with
  | zero => rfl
  | succ k ih => rw [List.range_succ, List.foldl_append, ih, List.foldl_cons, List.foldl_nil,
      fillIter_unset]

/-- C17: with no agents the velocity grid stays unset.  For `L ≥ 1`, `writer_add` with empty
position and velocity vectors appends the bytes of a density grid of `L` zeros and of a velocity
grid of `L` entries that all equal the unset mark `-1`. -/
theorem writer_add_no_agents (L : Nat) (_hL : 1 ≤ L) (wrtr : Writer) (hw : wrtr.length = L)
    (t : Int) :
    (writer_add wrtr t [] []).npydens =
        wrtr.npydens.write (rawBytes (List.replicate L 0)) (L * sizeofInt) ∧
      (writer_add wrtr t [] []).npyvelo =
        wrtr.npyvelo.write (rawBytes (List.replicate L (-1))) (L * sizeofInt) ∧
      densityGrid L [] = List.replicate L 0 ∧
      velocityGrid L [] [] = List.replicate L (-1) := by
  have hd : densityGrid L [] = List.replicate L 0 := by simp [densityGrid]
  have hv : velocityGrid L [] [] = List.replicate L (-1) := by
    have := fill_unset L L
    simpa [velocityGrid, UNSETMARK] using this
  refine ⟨?_, ?_, hd, hv⟩
  · simp only [writer_add, hw, hd, Int.toNat_ofNat]
  · simp only [writer_add, hw, hv, Int.toNat_ofNat]

/-- A concrete instance: a ring of ten cells without cars. -/
theorem writer_add_no_agents_witness :
    (writer_add (writer_open "traffic" 10) 0 [] []).npydens =
        (writer_open "traffic" 10).npydens.write (rawBytes (List.replicate 10 0))
          (10 * sizeofInt) ∧
      (writer_add (writer_open "traffic" 10) 0 [] []).npyvelo =
        (writer_open "traffic" 10).npyvelo.write (rawBytes (List.replicate 10 (-1)))
          (10 * sizeofInt) ∧
      densityGrid (10 : Nat) [] = List.replicate 10 0 ∧
      velocityGrid (10 : Nat) [] [] = List.replicate 10 (-1) :=
  writer_add_no_agents 10 (by decide) (writer_open "traffic" 10) rfl 0

end npy

/-! ## Parameters, safety of the time step, arithmetic of the generator -/

/-- C16 (the code at its only input): `default_parameters()` returns `L=500`, `T=500`, `N=300`,
`p=0.2` (the nearest `double`), `vmax=2`, `seed=13`, `per=1` as its header documents, but the
output prefix it returns is `"traffic"`, not the documented `"trafficMC.txt"`. -/
theorem default_parameters_value :
    default_parameters.L = 500 ∧ default_parameters.T = 500 ∧ default_parameters.N = 300 ∧
      default_parameters.p = double_0_2 ∧ |double_0_2 - 2 / 10| < 1 / 10 ^ 16 ∧
      default_parameters.vmax = 2 ∧ default_parameters.seed = 13 ∧ default_parameters.per = 1 ∧
      ( Parameters.outputprefix default_parameters) = "traffic" ∧
      ( Parameters.outputprefix default_parameters) ≠ "trafficMC.txt" := by
  refine ⟨rfl, rfl, rfl, rfl, ?_, rfl, rfl, rfl, rfl, by decide⟩
  unfold double_0_2
  rw [abs_lt]
  constructor <;> norm_num

theorem xAccesses_lt (N : Nat) (hN : 1 ≤ N) : ∀ i, i ∈ xAccesses N → i < N := by
  intro i hi
  unfold xAccesses at hi
  rw [List.mem_cons, List.mem_append, List.mem_flatMap] at hi
  rcases hi with h | ⟨k, hk, hik⟩ | h
  · omega
  · rw [List.mem_range] at hk
    split_ifs at hik with hc
    · simp only [List.mem_cons, List.mem_singleton, List.not_mem_nil, or_false] at hik
      omega
    · simp only [List.mem_singleton] at hik
      omega
  · exact List.mem_range.1 h

theorem vAccesses_lt (N : Nat) : ∀ i, i ∈ vAccesses N → i < N := by
  intro i hi
  unfold vAccesses at hi
  rw [List.mem_append, List.mem_flatMap] at hi
  rcases hi with ⟨k, hk, hik⟩ | h
  · rw [List.mem_range] at hk
    simp only [List.mem_cons, List.mem_singleton, List.not_mem_nil, or_false, or_self] at hik
    omega
  · exact List.mem_range.1 h

/-- C19 (failing input): for empty position and velocity vectors `one_time_step` accesses
`x[0]`, an index outside `[0, 0)`, before its loops; the call has no defined result. -/
theorem one_time_step_empty_reads_x0 :
    one_time_step [] [] ⟨10, 5, 0, 0, 2, 13, 1, "traffic"⟩ (fun _ => 0) = none ∧
      xAccesses 0 = [0] ∧ ¬ (0 < ([] : List Int).length) :=
  ⟨rfl, rfl, by decide⟩


namespace PRNG

theorem mul_lt_two_pow_62 (a b : Nat) (ha : a < modulus) (hb : b < modulus) :
    a * b < 2 ^ 62 := by
  have h1 : a * b ≤ 2147483647 * 2147483647 :=
    Nat.mul_le_mul (Nat.le_of_lt ha) (Nat.le_of_lt hb)
  have h2 : 2147483647 * 2147483647 < 2 ^ 62 := by norm_num
  omega

theorem discardTrace_bounds : ∀ (z b az : Nat), b < modulus → az < modulus →
    ∀ e, e ∈ discardTrace z b az → e.2.1 < modulus ∧ e.2.2 < modulus := by
  intro z
  induction z using Nat.strong_induction_on with
  | _ z ih =>
    intro b az hb haz e he
    rw [discardTrace] at he
    by_cases hz : z > 0
    · rw [dif_pos hz, List.mem_cons] at he
      rcases he with rfl | he
      · exact ⟨hb, haz⟩
      · refine ih (z / 2) (Nat.div_lt_self hz (by decide)) _ _ (Nat.mod_lt _ modulus_pos) ?_ e he
        split_ifs
        · exact Nat.mod_lt _ modulus_pos
        · exact haz
    · rw [dif_neg hz] at he
      exact absurd he (List.not_mem_nil e)

/-- The loop of `discard` runs one iteration per entry of the trace: its result is obtained by
folding the update of `az` over the trace. -/
theorem discardLoop_eq_foldl : ∀ (z b az : Nat),
    discardLoop z b az =
      (discardTrace z b az).foldl
        (fun acc e => if e.1 % 2 ≠ 0 then wmul acc e.2.1 % modulus else acc) az := by
  intro z
  induction z using Nat.strong_induction_on with
  | _ z ih =>
    intro b az
    rw [discardLoop, discardTrace]
    by_cases hz : z > 0
    · rw [dif_pos hz, dif_pos hz, List.foldl_cons]
      exact ih (z / 2) (Nat.div_lt_self hz (by decide)) _ _
    · rw [dif_neg hz, dif_neg hz]
      rfl

theorem pow_mul_mod_ne_zero (x z : Nat) (hx1 : 1 ≤ x) (hx2 : x < modulus) :
    multiplier ^ z * x % modulus ≠ 0 := by
  intro h0
  have hdvd : modulus ∣ multiplier ^ z * x := Nat.dvd_of_mod_eq_zero h0
  rcases (Nat.Prime.dvd_mul modulus_prime).1 hdvd with h | h
  · have h2 := Nat.Prime.dvd_of_dvd_pow modulus_prime h
    have h3 := Nat.le_of_dvd (by decide) h2
    revert h3
    decide
  · have h3 := Nat.le_of_dvd (by omega) h
    omega

theorem discard_seed_argument (x z : Nat) (hx2 : x < modulus) :
    wmul x (discardLoop z multiplier 1) % modulus = multiplier ^ z * x % modulus := by
  obtain ⟨haz, hlt⟩ := discardLoop_modEq z multiplier 1 (by decide) (by decide)
  rw [one_mul] at haz
  rw [wmul_eq x _ hx2 hlt, mul_comm]
  exact Nat.ModEq.mul_right x haz

/-- C20: `PRNG::discard` never wraps around in 64-bit unsigned arithmetic.  For every `z` and
every state `x < 2147483647`, at every loop iteration `az` and `b` are below `2147483647`, so
the products `az*b` and `b*b`, and after the loop `x*az`, are below `2^62` and the machine
products equal the exact ones; and for `x` in `[1, 2147483646]` the value passed to `seed` is
not 0, so `seed` stores it unchanged. -/
theorem discard_no_wraparound (x z : Nat) (hx : x < 2147483647) :
    (∀ e, e ∈ discardTrace z multiplier 1 →
        e.2.1 < 2147483647 ∧ e.2.2 < 2147483647 ∧
        e.2.2 * e.2.1 < 2 ^ 62 ∧ e.2.1 * e.2.1 < 2 ^ 62 ∧
        wmul e.2.2 e.2.1 = e.2.2 * e.2.1 ∧ wmul e.2.1 e.2.1 = e.2.1 * e.2.1) ∧
      discardLoop z multiplier 1 < 2147483647 ∧
      x * discardLoop z multiplier 1 < 2 ^ 62 ∧
      wmul x (discardLoop z multiplier 1) = x * discardLoop z multiplier 1 ∧
      (1 ≤ x →
        wmul x (discardLoop z multiplier 1) % modulus ≠ 0 ∧
        discard x z = wmul x (discardLoop z multiplier 1) % modulus) := by
  have hxm : x < modulus := hx
  obtain ⟨_, hlt⟩ := discardLoop_modEq z multiplier 1 (by decide) (by decide)
  refine ⟨?_, hlt, mul_lt_two_pow_62 x _ hxm hlt, wmul_eq x _ hxm hlt, ?_⟩
  · intro e he
    obtain ⟨hb, haz⟩ := discardTrace_bounds z multiplier 1 (by decide) (by decide) e he
    exact ⟨hb, haz, mul_lt_two_pow_62 _ _ haz hb, mul_lt_two_pow_62 _ _ hb hb,
      wmul_eq _ _ haz hb, wmul_eq _ _ hb hb⟩
  · intro hx1
    have harg := discard_seed_argument x z hxm
    have hne : wmul x (discardLoop z multiplier 1) % modulus ≠ 0 := by
      rw [harg]
      exact pow_mul_mod_ne_zero x z hx1 hxm
    refine ⟨hne, ?_⟩
    unfold discard
    simp only
    unfold seed
    rw [Nat.mod_mod, if_neg hne]

/-- A concrete instance: state 42, skip count `2^32`. -/
theorem discard_no_wraparound_witness :
    (∀ e, e ∈ discardTrace 4294967296 multiplier 1 →
        e.2.1 < 2147483647 ∧ e.2.2 < 2147483647 ∧
        e.2.2 * e.2.1 < 2 ^ 62 ∧ e.2.1 * e.2.1 < 2 ^ 62 ∧
        wmul e.2.2 e.2.1 = e.2.2 * e.2.1 ∧ wmul e.2.1 e.2.1 = e.2.1 * e.2.1) ∧
      discardLoop 4294967296 multiplier 1 < 2147483647 ∧
      42 * discardLoop 4294967296 multiplier 1 < 2 ^ 62 ∧
      wmul 42 (discardLoop 4294967296 multiplier 1) = 42 * discardLoop 4294967296 multiplier 1 ∧
      (1 ≤ 42 →
        wmul 42 (discardLoop 4294967296 multiplier 1) % modulus ≠ 0 ∧
        discard 42 4294967296 = wmul 42 (discardLoop 4294967296 multiplier 1) % modulus) :=
  discard_no_wraparound 42 4294967296 (by decide)

end PRNG

/-! ## The initial state and the driver loop -/

theorem drawnVelocity_safe (N : Nat) (L : Int) (x : List Int) (i : Nat) (r : Int)
    (hi : i < N) (hr : 0 ≤ r)
    (hord : ∀ k, k + 1 < N → x.getD k 0 < x.getD (k + 1) 0)
    (hspan : x.getD (N - 1) 0 < x.getD 0 0 + L)
    (hfirst : x.getD 0 0 ≤ x.getD (N - 1) 0 ∧ (2 ≤ N → x.getD 0 0 < x.getD (N - 1) 0)) :
    0 ≤ drawnVelocity N L x i r ∧ drawnVelocity N L x i r ≤ r ∧
      (i + 1 < N → x.getD i 0 + drawnVelocity N L x i r < x.getD (i + 1) 0) ∧
      (i + 1 = N → x.getD (N - 1) 0 + drawnVelocity N L x i r < x.getD 0 0 + L) := by
  unfold drawnVelocity
  by_cases h : i + 1 < N
  · have hlt := hord i h
    have hd0 : (if (i : Int) < (N : Int) - 1 then x.getD (i + 1) 0 - x.getD i 0
        else x.getD 0 0 - x.getD (N - 1) 0) = x.getD (i + 1) 0 - x.getD i 0 :=
      if_pos (by omega)
    have hd : (if x.getD (i + 1) 0 - x.getD i 0 < 0 then x.getD (i + 1) 0 - x.getD i 0 + L
        else x.getD (i + 1) 0 - x.getD i 0) = x.getD (i + 1) 0 - x.getD i 0 :=
      if_neg (by omega)
    simp only [hd0, hd]
    have hmax : max 0 (x.getD (i + 1) 0 - x.getD i 0 - 1) = x.getD (i + 1) 0 - x.getD i 0 - 1 :=
      max_eq_right (by omega)
    rw [hmax]
    split_ifs with hgt
    · exact ⟨by omega, by omega, fun _ => by omega, fun h2 => by omega⟩
    · exact ⟨hr, le_rfl, fun _ => by omega, fun h2 => by omega⟩
  · have hd0 : (if (i : Int) < (N : Int) - 1 then x.getD (i + 1) 0 - x.getD i 0
        else x.getD 0 0 - x.getD (N - 1) 0) = x.getD 0 0 - x.getD (N - 1) 0 :=
      if_neg (by omega)
    simp only [hd0]
    by_cases hneg : x.getD 0 0 - x.getD (N - 1) 0 < 0
    · rw [if_pos hneg]
      have hmax : max 0 (x.getD 0 0 - x.getD (N - 1) 0 + L - 1)
          = x.getD 0 0 - x.getD (N - 1) 0 + L - 1 := max_eq_right (by omega)
      rw [hmax]
      split_ifs with hgt
      · exact ⟨by omega, by omega, fun h2 => absurd h2 h, fun _ => by omega⟩
      · exact ⟨hr, le_rfl, fun h2 => absurd h2 h, fun _ => by omega⟩
    · rw [if_neg hneg]
      have heq : x.getD 0 0 - x.getD (N - 1) 0 = 0 := by have := hfirst.1; omega
      rw [heq]
      have hmax : max (0 : Int) (0 - 1) = 0 := by decide
      rw [hmax]
      split_ifs with hgt
      · exact ⟨le_rfl, by omega, fun h2 => absurd h2 h, fun _ => by omega⟩
      · exact ⟨hr, le_rfl, fun h2 => absurd h2 h, fun _ => by omega⟩

/-- C18: the initial state satisfies the simulator's invariant.  For `1 ≤ N < L`, `vmax ≥ 0`
and any draws within the bounds of the distributions, `random_placement` and `random_velocity`
return positions `x` and velocities `v` such that the positions are strictly increasing in
`[0, L)` with `x[N-1] < x[0] + L`, every `v[i]` is in `[0, vmax]`, and no first move reaches
the leader: `x[i] + v[i] < x[i+1]` for `i < N-1` and `x[N-1] + v[N-1] < x[0] + L`. -/
theorem initial_state_invariant (N : Nat) (L vmax : Int) (rng : IntDraws)
    (hN : 1 ≤ N) (hNL : (N : Int) < L) (hvmax : 0 ≤ vmax)
    (hdraw1 : drawsWithin (L - N - 1) N rng)
    (hdraw2 : drawsWithin vmax N (fun n => rng (n + N))) :
    ∃ (x v : List Int) (rng2 : IntDraws),
      random_placement N L rng = some (x, fun n => rng (n + N)) ∧
      random_velocity N L vmax x (fun n => rng (n + N)) = some (v, rng2) ∧
      x.length = N ∧ v.length = N ∧
      (∀ i, i + 1 < N → x.getD i 0 < x.getD (i + 1) 0) ∧
      (∀ i, i < N → 0 ≤ x.getD i 0 ∧ x.getD i 0 < L) ∧
      x.getD (N - 1) 0 < x.getD 0 0 + L ∧
      (∀ i, i < N → 0 ≤ v.getD i 0 ∧ v.getD i 0 ≤ vmax) ∧
      (∀ i, i + 1 < N → x.getD i 0 + v.getD i 0 < x.getD (i + 1) 0) ∧
      x.getD (N - 1) 0 + v.getD (N - 1) 0 < x.getD 0 0 + L := by
  obtain ⟨x, hx, hxlen, hord, hrange⟩ := random_placement_spec N L rng hNL hdraw1
  obtain ⟨v, hv, hvlen, hvget⟩ := random_velocity_loop N L vmax x (fun n => rng (n + N)) hvmax
  have hlast := hrange (N - 1) (by omega)
  have hzero := hrange 0 (by omega)
  have hspan : x.getD (N - 1) 0 < x.getD 0 0 + L := by omega
  have hfirst : x.getD 0 0 ≤ x.getD (N - 1) 0 ∧ (2 ≤ N → x.getD 0 0 < x.getD (N - 1) 0) := by
    have hmono : ∀ k, k < N → x.getD 0 0 ≤ x.getD k 0 ∧ (1 ≤ k → x.getD 0 0 < x.getD k 0) := by
      intro k
      induction k with
      | zero => intro _; exact ⟨le_rfl, fun h => by omega⟩
      | succ n ih =>
        intro hn
        have h1 := (ih (by omega)).1
        have h2 := hord n hn
        exact ⟨by omega, fun _ => by omega⟩
    exact ⟨(hmono (N - 1) (by omega)).1, fun h2 => (hmono (N - 1) (by omega)).2 (by omega)⟩
  have hsafe : ∀ i, i < N → _ := fun i hi =>
    drawnVelocity_safe N L x i (rng (i + N)) hi (hdraw2 i hi).1 hord hspan hfirst
  refine ⟨x, v, _, hx, hv, hxlen, hvlen, hord, ?_, hspan, ?_, ?_, ?_⟩
  · intro i hi
    have := hrange i hi
    exact ⟨this.1, by omega⟩
  · intro i hi
    rw [hvget i hi]
    have := hsafe i hi
    have hb : rng (i + N) ≤ vmax := (hdraw2 i hi).2
    exact ⟨this.1, by omega⟩
  · intro i hi
    rw [hvget i (by omega)]
    exact (hsafe i (by omega)).2.2.1 hi
  · rw [hvget (N - 1) (by omega)]
    exact (hsafe (N - 1) (by omega)).2.2.2 (by omega)

/-- A concrete instance: three cars on ten cells, `vmax = 2`. -/
theorem initial_state_invariant_witness :
    ∃ (x v : List Int) (rng2 : IntDraws),
      random_placement 3 10 (fun i => ([5, 1, 3, 2, 0, 1] : List Int).getD i 0)
        = some (x, fun n => (fun i => ([5, 1, 3, 2, 0, 1] : List Int).getD i 0) (n + 3)) ∧
      random_velocity 3 10 2 x
        (fun n => (fun i => ([5, 1, 3, 2, 0, 1] : List Int).getD i 0) (n + 3)) = some (v, rng2) ∧
      x.length = 3 ∧ v.length = 3 ∧
      (∀ i, i + 1 < 3 → x.getD i 0 < x.getD (i + 1) 0) ∧
      (∀ i, i < 3 → 0 ≤ x.getD i 0 ∧ x.getD i 0 < 10) ∧
      x.getD (3 - 1) 0 < x.getD 0 0 + 10 ∧
      (∀ i, i < 3 → 0 ≤ v.getD i 0 ∧ v.getD i 0 ≤ 2) ∧
      (∀ i, i + 1 < 3 → x.getD i 0 + v.getD i 0 < x.getD (i + 1) 0) ∧
      x.getD (3 - 1) 0 + v.getD (3 - 1) 0 < x.getD 0 0 + 10 :=
  initial_state_invariant 3 10 2 (fun i => ([5, 1, 3, 2, 0, 1] : List Int).getD i 0)
    (by decide) (by decide) (by decide)
    (by intro i hi; interval_cases i <;> decide)
    (by intro i hi; interval_cases i <;> decide)


/-- With an empty state the first call of `one_time_step` has no result, whatever `T ≥ 0`. -/
theorem driver_empty_state (params : Parameters) (hT : 0 ≤ params.T) (rng : FloatDraws)
    (fuel : Nat) : driver fuel params [] [] rng = none := by
  unfold driver
  simp only
  cases fuel with
  | zero => rfl
  | succ f =>
    rw [driverLoop, if_pos hT]
    rfl

end Traffic
